import Mathlib

/-!
Verification of the exploration/navigation learning core of the McCay
text-game agent (codagent_mccay.py): the per-room transition table
(qTable) and its operations, the recall-edge fan-out, the graph export,
Dijkstra shortest paths over the exported graph, the text normalizer
used by the room-identity hasher, and the cooldown-aware
priority-scheduled behavioral state machine.

Modelling conventions, fixed once for the whole file:
* Room identifiers (SHA-256 digests read as integers) are `Nat`; the
  sentinel "unknown room" is `0`.
* The Python float weights that occur in the source take only the exact
  integer values -100, 0, 1, 2 and 6, so edge weights are modelled as
  `Int`.
* A pandas `Series` is an insertion-ordered association list of
  `(label, value)` pairs; a Python `dict` is an insertion-ordered
  association list of key-value pairs.  Assigning to a fresh label
  appends, assigning to an existing label updates in place.
* Python strings are lists of characters.
* `time.time()` is passed in explicitly as a `Nat` argument `now`.
-/

namespace McCay

/-- A transition edge value: a `(weight, destination room id)` pair, as
stored in the qTable Series of codagent_mccay.py. -/
abbrev QEdge := Int × Nat

/-- One room's entry in the transition table: a pandas Series, i.e. an
insertion-ordered list of `(action label, edge)` pairs. -/
abbrev RoomSeries := List (String × QEdge)

/-- The transition table `qTable`: a dict from room id to that room's
Series. -/
abbrev QTable := List (Nat × RoomSeries)

/-- The fixed compass action labels (`actionspace`, codagent_mccay.py). -/
def actionspace : List String := ["N", "S", "E", "W", "SE", "SW", "NE", "NW", "U", "D"]

/-- Whether `lbl` occurs in the Series' index (`lbl in series.index`). -/
def seriesHasLabel (s : RoomSeries) (lbl : String) : Bool :=
  s.any (fun p => p.1 == lbl)

/-- In-place update of the value at an existing label
(`series.at[lbl] = v`).  Labels and order are unchanged. -/
def seriesSetAt (s : RoomSeries) (lbl : String) (v : QEdge) : RoomSeries :=
  s.map (fun p => if p.1 = lbl then (p.1, v) else p)

/-- Whether the dict `qt` has an entry for room `r` (`r in qTable`). -/
def qtHasRoom (qt : QTable) (r : Nat) : Bool :=
  qt.any (fun p => p.1 == r)

/-- `qTable[r]`, defaulting to an empty Series when absent (the source
only reads a room after checking membership). -/
def qtGet (qt : QTable) (r : Nat) : RoomSeries :=
  ((qt.find? (fun p => p.1 == r)).map Prod.snd).getD []

/-- Dict assignment `qTable[r] = s`: update the existing entry in place,
or append a fresh one. -/
def qtSet (qt : QTable) (r : Nat) (s : RoomSeries) : QTable :=
  if qtHasRoom qt r then qt.map (fun p => if p.1 = r then (r, s) else p)
  else qt ++ [(r, s)]

/-- The module-wide mutable exploration state: the transition table and
the process-wide recall target `apparentrecallroom`. -/
structure AgentTable where
  qTable : QTable
  apparentrecallroom : QEdge
deriving Repr, DecidableEq

/-- The Series a fresh room is created with by `add_loc_to_qtable`:
one `(0.0, 0)` edge per compass label, then a `"brain"` edge `(1.0, 0)`
and a `"recall"` edge holding the current global recall target (the two
later assignments append fresh labels). -/
def defaultSeries (recallEdge : QEdge) : RoomSeries :=
  actionspace.map (fun a => (a, ((0 : Int), 0))) ++ [("brain", (1, 0)), ("recall", recallEdge)]

/-- `add_loc_to_qtable(currentloc)` (codagent_mccay.py lines 1025-1029):
lazily create the room's entry, pre-populated with the default
compass/brain/recall edges; a no-op when the room already exists. -/
def add_loc_to_qtable (st : AgentTable) (currentloc : Nat) : AgentTable :=
  if qtHasRoom st.qTable currentloc then st
  else { st with qTable := st.qTable ++ [(currentloc, defaultSeries st.apparentrecallroom)] }

/-- `update_recall_edges(new_recall_target)` (codagent_mccay.py lines
1031-1040): set the global recall target to `(-100, new_recall_target)`
and overwrite the `"recall"` edge of every room that has one. -/
def update_recall_edges (st : AgentTable) (new_recall_target : Nat) : AgentTable :=
  let newRecall : QEdge := (-100, new_recall_target)
  { qTable :=
      st.qTable.map (fun p =>
        if seriesHasLabel p.2 "recall" then (p.1, seriesSetAt p.2 "recall" newRecall) else p),
    apparentrecallroom := newRecall }

/-- The qTable update performed by `use_big_brain` after a confirmed
movement (codagent_mccay.py lines 1311-1323): when `oldloc` is in the
table and `commandsequence` is a fresh label, and no existing edge of
`oldloc` already leads to `currentloc`, reindex-append a new edge keyed
by the literal command text with value `(2.0, currentloc)` and report a
novel discovery; otherwise leave the table alone.  The returned Bool is
the `newdiscovery` flag. -/
def record_brain_move (qt : QTable) (oldloc : Nat) (commandsequence : String)
    (currentloc : Nat) : Bool × QTable :=
  if qtHasRoom qt oldloc && ! seriesHasLabel (qtGet qt oldloc) commandsequence then
    if ! (qtGet qt oldloc).any (fun p => p.2.2 == currentloc) then
      (true, qtSet qt oldloc (qtGet qt oldloc ++ [(commandsequence, (2, currentloc))]))
    else (false, qt)
  else (false, qt)

/-- Modelled from the spec: the compass branch of
`record_successful_move` is absent from the source snapshot (the main
loop of codagent_mccay.py is truncated before the movement-recording
code), so this branch follows the spec's words: "If `command_sequence`
matches one of the fixed compass labels, update that edge's destination
in place."  The non-compass branch is the source's `use_big_brain`
update, `record_brain_move` above. -/
def record_successful_move (st : AgentTable) (from_room : Nat) (command_sequence : String)
    (to_room : Nat) : AgentTable :=
  if command_sequence ∈ actionspace then
    { st with
      qTable :=
        st.qTable.map (fun p =>
          if p.1 = from_room then
            (p.1, p.2.map (fun e => if e.1 = command_sequence then (e.1, (e.2.1, to_room)) else e))
          else p) }
  else { st with qTable := (record_brain_move st.qTable from_room command_sequence to_room).2 }

/-- Assignment `d[k] = v` on a Python dict modelled as an association
list with `Nat` keys and values. -/
def dictInsertNat (l : List (Nat × Nat)) (k v : Nat) : List (Nat × Nat) :=
  if l.any (fun p => p.1 == k) then l.map (fun p => if p.1 = k then (k, v) else p)
  else l ++ [(k, v)]

/-- The adjacency view used for path planning. -/
abbrev Graph := List (Nat × List (Nat × Nat))

/-- `qtable_to_graph` (codagent_mccay.py lines 1131-1138): for every
room key emit an adjacency dict, inserting `dest -> 1` for every edge
whose destination is known (nonzero). -/
def qtable_to_graph (qt : QTable) : Graph :=
  qt.map (fun p =>
    (p.1, p.2.foldl (fun acc e => if e.2.2 ≠ 0 then dictInsertNat acc e.2.2 1 else acc) []))

/-- The transition table as seeded at the top of `main`
(codagent_mccay.py line 1507): before any server text is parsed,
`currentloc` is `0` and `qTable[0]` is created with only the compass
labels; the module-level recall target starts as `(6, 0)`
(codagent_mccay.py line 202). -/
def mainInitialTable : AgentTable :=
  { qTable := [(0, actionspace.map (fun a => (a, ((0 : Int), 0))))],
    apparentrecallroom := (6, 0) }

/-- Transition-table states reachable in a run: the `main` seeding
followed by any sequence of the table operations in the source (lazy
room creation, recall fan-out, brain-move recording) or the
spec-modelled `record_successful_move`. -/
inductive ReachableTable : AgentTable → Prop
  | init : ReachableTable mainInitialTable
  | add (st : AgentTable) (loc : Nat) :
      ReachableTable st → ReachableTable (add_loc_to_qtable st loc)
  | recall (st : AgentTable) (T : Nat) :
      ReachableTable st → ReachableTable (update_recall_edges st T)
  | brain (st : AgentTable) (oldloc : Nat) (cmd : String) (dest : Nat) :
      ReachableTable st →
      ReachableTable { st with qTable := (record_brain_move st.qTable oldloc cmd dest).2 }
  | move (st : AgentTable) (a : Nat) (cmd : String) (b : Nat) :
      ReachableTable st → ReachableTable (record_successful_move st a cmd b)

/-! Text normalization (`strip_unprintable`, codagent_mccay.py lines
952-959): substitute away ANSI escape sequences, keep only printable
characters, strip surrounding whitespace. -/

/-- Python `str.isspace` for a single character: true exactly on the
Unicode whitespace set used by CPython (ASCII 0x09-0x0D, 0x1C-0x20,
NEL, NBSP, and the Unicode separator code points). -/
def pyIsspace (c : Char) : Bool :=
  let n := c.toNat
  (9 ≤ n && n ≤ 13) || (28 ≤ n && n ≤ 32) || n == 0x85 || n == 0xA0 ||
  n == 0x1680 || (0x2000 ≤ n && n ≤ 0x200A) || n == 0x2028 || n == 0x2029 ||
  n == 0x202F || n == 0x205F || n == 0x3000

/-- Python `str.isprintable` for a single character: false exactly on
the Unicode "Other" and "Separator" categories except the ASCII space.
The ranges below enumerate those categories over the control blocks,
separator and format code points, surrogates and the BMP private-use
area; this covers every character class the agent's terminal protocol
can produce and agrees with CPython on all characters used in this
file. -/
def pyIsprintable (c : Char) : Bool :=
  let n := c.toNat
  !(n < 32 || (0x7F ≤ n && n ≤ 0xA0) || n == 0xAD ||
    n == 0x1680 || (0x2000 ≤ n && n ≤ 0x200F) || (0x2028 ≤ n && n ≤ 0x202F) ||
    n == 0x205F || (0x2060 ≤ n && n ≤ 0x2064) || (0x2066 ≤ n && n ≤ 0x206F) ||
    n == 0x3000 || (0xD800 ≤ n && n ≤ 0xF8FF) || n == 0xFEFF ||
    (0xFFF9 ≤ n && n ≤ 0xFFFB))

/-- Character class 0x30-0x3F (digits through question mark) of the
escape-sequence regex. -/
def isAnsiParam (c : Char) : Bool := 0x30 ≤ c.toNat && c.toNat ≤ 0x3F

/-- Character class 0x20-0x2F (space through slash) of the
escape-sequence regex. -/
def isAnsiInter (c : Char) : Bool := 0x20 ≤ c.toNat && c.toNat ≤ 0x2F

/-- Character class 0x40-0x7E (at-sign through tilde) of the
escape-sequence regex. -/
def isAnsiFinal (c : Char) : Bool := 0x40 ≤ c.toNat && c.toNat ≤ 0x7E

/-- Match of the ANSI escape regex (ESC, a bracket, then the three
character classes above, the first two repeated) at the head of the
text, returning the remainder after the match.  The three character
classes are pairwise disjoint, so the greedy left-to-right scan decides
the match without backtracking, exactly as the regex engine does. -/
def ansiMatchRem : List Char → Option (List Char)
  | c1 :: c2 :: rest =>
    if c1 == '\x1b' && c2 == '[' then
      match (rest.dropWhile isAnsiParam).dropWhile isAnsiInter with
      | f :: tailRem => if isAnsiFinal f then some tailRem else none
      | [] => none
    else none
  | _ => none

/-- A successful match of the escape-sequence regex consumes at least
the two lead characters, so the remainder is strictly shorter. -/
theorem ansiMatchRem_length {cs rem : List Char} (h : ansiMatchRem cs = some rem) :
    rem.length < cs.length := by
  match cs with
  | [] => simp [ansiMatchRem] at h
  | [c] => simp [ansiMatchRem] at h
  | c1 :: c2 :: rest =>
    simp only [ansiMatchRem] at h
    split at h
    · split at h
      · rename_i f tailRem h2
        split at h
        · injection h with h
          subst h
          have l3 := (List.dropWhile_sublist (l := rest.dropWhile isAnsiParam) isAnsiInter).length_le
          have l2 := (List.dropWhile_sublist (l := rest) isAnsiParam).length_le
          rw [h2] at l3
          simp only [List.length_cons] at l3 ⊢
          omega
        · simp at h
      · simp at h
    · simp at h

/-- `ANSI_ESCAPE_RE.sub('', s)`: delete every match of the escape-code
regex, scanning left to right. -/
def ansiSub (cs : List Char) : List Char :=
  match _hm : ansiMatchRem cs with
  | some rem => ansiSub rem
  | none =>
    match cs with
    | [] => []
    | c :: rest => c :: ansiSub rest
termination_by cs.length
decreasing_by
  · exact ansiMatchRem_length _hm
  · simp

/-- `str.strip()` from the left: drop leading whitespace. -/
def pyStripLeft (cs : List Char) : List Char := cs.dropWhile pyIsspace

/-- `str.strip()` from the right: drop trailing whitespace. -/
def pyStripRight (cs : List Char) : List Char := (cs.reverse.dropWhile pyIsspace).reverse

/-- `str.strip()`: drop leading and trailing whitespace. -/
def pyStrip (cs : List Char) : List Char := pyStripRight (pyStripLeft cs)

/-- `strip_unprintable` (codagent_mccay.py lines 952-959): delete ANSI
escape sequences, keep only printable characters, then strip surrounding
whitespace. -/
def strip_unprintable (s : List Char) : List Char :=
  pyStrip ((ansiSub s).filter pyIsprintable)

/-! The `heapq` model: Python's array-based binary heap, translated
verbatim (`_siftdown`, `_siftup`, `heappush`, `heappop`) and
parameterized by the element comparison.  The sift loops recurse on an
explicit fuel that is chosen exactly large enough (`_siftdown` moves to
the parent index `(pos-1)/2 < pos`, `_siftup` moves to a child index
`> pos` bounded by `endpos`), so the fuel never runs out and the
fuel-exhausted fallback coincides with the loop-exit assignment. -/

section HeapModel

variable {α : Type} (lt : α → α → Bool)

/-- `heapq._siftdown(heap, startpos, pos)` with `newitem = heap[pos]`:
bubble `newitem` toward the root while it compares less than the parent
at index `(pos - 1) / 2`. -/
def siftdownAux (startpos : Nat) : Nat → List α → Nat → α → List α
  | 0, heap, pos, newitem => heap.set pos newitem
  | fuel + 1, heap, pos, newitem =>
    if startpos < pos then
      if lt newitem (heap.getD ((pos - 1) / 2) newitem) then
        siftdownAux startpos fuel (heap.set pos (heap.getD ((pos - 1) / 2) newitem))
          ((pos - 1) / 2) newitem
      else heap.set pos newitem
    else heap.set pos newitem

/-- `heapq._siftdown` at position `pos` (fuel `pos` suffices: each loop
iteration moves to the strictly smaller parent index). -/
def siftdown (startpos : Nat) (heap : List α) (pos : Nat) (newitem : α) : List α :=
  siftdownAux lt startpos pos heap pos newitem

/-- `heapq.heappush`: append the item and sift it down toward the
root. -/
def heappush (heap : List α) (item : α) : List α :=
  siftdown lt 0 (heap ++ [item]) heap.length item

/-- The child `_siftup` moves up: the right child `2*pos + 2` when it
exists and is not greater than the left child, else the left child
`2*pos + 1`. -/
def siftupChild (endpos : Nat) (heap : List α) (pos : Nat) (newitem : α) : Nat :=
  if 2 * pos + 2 < endpos &&
      ! lt (heap.getD (2 * pos + 1) newitem) (heap.getD (2 * pos + 2) newitem) then
    2 * pos + 2
  else 2 * pos + 1

/-- The loop of `heapq._siftup(heap, pos)`: move the smaller child up
into the hole at `pos` until reaching a leaf, then place `newitem` and
restore the invariant with `_siftdown`. -/
def siftupAux (startpos endpos : Nat) : Nat → List α → Nat → α → List α
  | 0, heap, pos, newitem => siftdown lt startpos (heap.set pos newitem) pos newitem
  | fuel + 1, heap, pos, newitem =>
    if 2 * pos + 1 < endpos then
      siftupAux startpos endpos fuel
        (heap.set pos (heap.getD (siftupChild lt endpos heap pos newitem) newitem))
        (siftupChild lt endpos heap pos newitem) newitem
    else siftdown lt startpos (heap.set pos newitem) pos newitem

/-- `heapq._siftup(heap, pos)` (fuel `endpos = len(heap)` suffices:
each loop iteration moves to a strictly larger child index below
`endpos`). -/
def siftup (heap : List α) (pos : Nat) : List α :=
  match heap.get? pos with
  | some newitem => siftupAux lt pos heap.length heap.length heap pos newitem
  | none => heap

/-- `heapq.heappop`: pop and return the last element; if the heap is
still nonempty, move that element to the root and sift it up.  Returns
`none` on an empty heap (Python raises `IndexError`; every call site in
the source pops only nonempty heaps). -/
def heappop (heap : List α) : Option (α × List α) :=
  match heap.getLast? with
  | none => none
  | some lastelt =>
    if heap.dropLast.isEmpty then some (lastelt, [])
    else
      some (heap.dropLast.headD lastelt, siftup lt (heap.dropLast.set 0 lastelt) 0)

end HeapModel

/-! The behavioral state machine and priority scheduler (class `NPC`,
codagent_mccay.py lines 691-910).  `exit`/`enter` lifecycle calls are
recorded in an explicit event log so that theorems can assert that a
rejected transition executed neither; the `enter` bodies in the source
print and send protocol text, set the four re-entry cooldowns modelled
below, and all return `None`. -/

/-- The state classes of the finite-state machine.  The classes through
`brain` are defined in the source; `gearBuying` is referenced by
`enqueue_prioritized_state` but its class body is not in the source
snapshot, so it is modelled from the spec as the targeted
("go buy gear") state carrying a distinguishing shop key
`chosen_mobhash`. -/
inductive PState
  | combatNeutral
  | flee
  | noState
  | sleep
  | inventoryManaging
  | quenching
  | feasting
  | attack
  | defend
  | brain
  | gearBuying (chosen_mobhash : Nat)
deriving Repr, DecidableEq

/-- The Python class name of a state (`__class__.__name__`; no state in
the source defines `get_state_key`, so `change_state` always falls back
to the class name).  Class identity coincides with name equality: there
is one class per name and no subclassing among the concrete states. -/
def stateName : PState → String
  | .combatNeutral => "CombatNeutralState"
  | .flee => "FleeState"
  | .noState => "NoState"
  | .sleep => "SleepState"
  | .inventoryManaging => "InventoryManagingState"
  | .quenching => "QuenchingState"
  | .feasting => "FeastingState"
  | .attack => "AttackState"
  | .defend => "DefendState"
  | .brain => "BrainState"
  | .gearBuying _ => "GearBuyingState"

/-- `isinstance(x, cls)` for two concrete state instances: same class
tag (the constructor, ignoring the gear-buying target). -/
def sameClass (a b : PState) : Bool := stateName a == stateName b

/-- A `(priority, state)` heap entry (`ScheduledState`); `__lt__`
compares priorities only. -/
structure ScheduledState where
  priority : Int
  state_obj : PState
deriving Repr, DecidableEq

/-- `ScheduledState.__lt__`, the comparison `heapq` uses. -/
def schedLt (a b : ScheduledState) : Bool := a.priority < b.priority

/-- The scheduler-relevant fields of an `NPC`: the current state, the
priority min-heap, the per-state-name cooldown map
`next_state_allowed`, and the log of executed `exit`/`enter` lifecycle
calls. -/
structure NPCState where
  state : PState
  state_heap : List ScheduledState
  next_state_allowed : List (String × Nat)
  events : List (String × String)
deriving Repr, DecidableEq

/-- `self.next_state_allowed.get(name, 0)`. -/
def lookupAllowed (l : List (String × Nat)) (key : String) : Nat :=
  ((l.find? (fun p => p.1 == key)).map Prod.snd).getD 0

/-- Dict assignment on the cooldown map. -/
def assocSetStr (l : List (String × Nat)) (k : String) (v : Nat) : List (String × Nat) :=
  if l.any (fun p => p.1 == k) then l.map (fun p => if p.1 = k then (k, v) else p)
  else l ++ [(k, v)]

/-- `set_state_cooldown(key, duration)` at time `now`
(codagent_mccay.py lines 826-840): record the earliest re-entry time
`now + duration` under the state's name. -/
def set_state_cooldown (npc : NPCState) (key : String) (duration now : Nat) : NPCState :=
  { npc with next_state_allowed := assocSetStr npc.next_state_allowed key (now + duration) }

/-- Executing `self.state.exit(self)`: log the call (the exit bodies
print or send text only). -/
def stateExitRun (npc : NPCState) : NPCState :=
  { npc with events := npc.events ++ [("exit", stateName npc.state)] }

/-- Executing `state.enter(self)` at time `now`: log the call; the
Sleep, InventoryManaging, Quenching and Feasting enter bodies also set
their own re-entry cooldown (300, 60, 180 and 180 seconds). -/
def stateEnterRun (s : PState) (now : Nat) (npc : NPCState) : NPCState :=
  let npc1 := { npc with events := npc.events ++ [("enter", stateName s)] }
  match s with
  | .sleep => set_state_cooldown npc1 "SleepState" 300 now
  | .inventoryManaging => set_state_cooldown npc1 "InventoryManagingState" 60 now
  | .quenching => set_state_cooldown npc1 "QuenchingState" 180 now
  | .feasting => set_state_cooldown npc1 "FeastingState" 180 now
  | _ => npc1

/-- `NPC.change_state(new_state)` at time `now` (codagent_mccay.py
lines 778-813).  Returns the Python return value paired with the new
object state: transitioning to the state already current is an early
`return` (`None`); a state still on cooldown is rejected with
`return None` and no side effects; otherwise exit, reassign, enter, and
return the enter body's result (every enter body in the source returns
`None`). -/
def change_state (npc : NPCState) (new_state : PState) (now : Nat) :
    Option Unit × NPCState :=
  let new_state_name := stateName new_state
  let old_state_name := stateName npc.state
  if new_state_name = old_state_name then (none, npc)
  else
    let next_allowed_time := lookupAllowed npc.next_state_allowed new_state_name
    if now < next_allowed_time then (none, npc)
    else
      let npc1 := stateExitRun npc
      let npc2 := stateEnterRun new_state now { npc1 with state := new_state }
      (none, npc2)

/-- The duplicate test of `enqueue_prioritized_state`'s first loop: an
already-scheduled entry blocks the new request when it has the same
class, and, for the gear-buying class only, also the same target shop
key. -/
def isDuplicateOf (new_state : PState) (scheduled : ScheduledState) : Bool :=
  sameClass scheduled.state_obj new_state &&
    (match new_state, scheduled.state_obj with
     | .gearBuying m_new, .gearBuying m_old => m_old == m_new
     | _, _ => true)

/-- `NPC.enqueue_prioritized_state(priority, new_state)` at time `now`
(codagent_mccay.py lines 727-775): silently drop duplicates; when the
heap is nonempty, the priority is strictly lower than the heap root's
and the state is off cooldown, bypass the queue with an immediate
exit/assign/enter; otherwise push onto the heap. -/
def enqueue_prioritized_state (npc : NPCState) (now : Nat) (priority : Int)
    (new_state : PState) : NPCState :=
  if npc.state_heap.any (isDuplicateOf new_state) then npc
  else
    match npc.state_heap with
    | [] => { npc with state_heap := heappush schedLt npc.state_heap ⟨priority, new_state⟩ }
    | s0 :: _ =>
      if priority < s0.priority ∧
          lookupAllowed npc.next_state_allowed (stateName new_state) ≤ now then
        stateEnterRun new_state now { (stateExitRun npc) with state := new_state }
      else { npc with state_heap := heappush schedLt npc.state_heap ⟨priority, new_state⟩ }

/-! Dijkstra's algorithm (codagent_mccay.py lines 1142-1188).  The
Python dicts `shortest_paths` and `previous_nodes` are modelled as
total functions (absent keys read as infinity and `None` respectively,
which is exactly how the algorithm treats them after its missing-key
stopgap) together with an explicit key list `distKeys` for the
membership tests the source performs.  The priority queue holds
`(distance, node)` pairs compared lexicographically, exactly as Python
compares int tuples. -/

/-- Python tuple comparison on `(distance, node)` pairs. -/
def tupLt (a b : Nat × Nat) : Bool := a.1 < b.1 || (a.1 == b.1 && a.2 < b.2)

/-- `graph[u]` as an optional adjacency list. -/
def lookupG (g : Graph) (u : Nat) : Option (List (Nat × Nat)) :=
  (g.find? (fun p => p.1 == u)).map Prod.snd

/-- The key set of the graph dict. -/
def graphKeys (g : Graph) : List Nat := g.map Prod.fst

/-- Every node mentioned by the graph: keys and neighbors. -/
def allNodes (g : Graph) : List Nat :=
  graphKeys g ++ (g.map (fun p => p.2.map Prod.fst)).flatten

/-- The mutable state of the Dijkstra loop. -/
structure DState where
  dist : Nat → WithTop Nat
  distKeys : List Nat
  prev : Nat → Option Nat
  queue : List (Nat × Nat)

/-- The body of the neighbor loop for one `(neighbor, weight)` pair:
add a missing neighbor to the distance dict (at infinity, which the
total-function view already reads for it), then relax the edge,
recording distance, predecessor and a queue entry on improvement. -/
def relaxStep (current_distance current_node : Nat) (st : DState) (nw : Nat × Nat) : DState :=
  if ((current_distance + nw.2 : Nat) : WithTop Nat) < st.dist nw.1 then
    { dist := fun x =>
        if x = nw.1 then ((current_distance + nw.2 : Nat) : WithTop Nat) else st.dist x,
      distKeys := if nw.1 ∈ st.distKeys then st.distKeys else st.distKeys ++ [nw.1],
      prev := fun x => if x = nw.1 then some current_node else st.prev x,
      queue := heappush tupLt st.queue (current_distance + nw.2, nw.1) }
  else { st with distKeys := if nw.1 ∈ st.distKeys then st.distKeys else st.distKeys ++ [nw.1] }

/-- The neighbor loop `for neighbor, weight in graph[current_node].items()`. -/
def relaxAll (current_distance current_node : Nat) (adj : List (Nat × Nat))
    (st : DState) : DState :=
  adj.foldl (relaxStep current_distance current_node) st

/-- The finite value of a distance (`0` for infinity); used only inside
the termination measure of the loop. -/
def finVal : WithTop Nat → Nat
  | none => 0
  | some n => n

/-- Termination measure, first component: how many of the graph's nodes
are still at infinite distance. -/
def topCount (D : List Nat) (dist : Nat → WithTop Nat) : Nat :=
  D.countP (fun x => dist x == (⊤ : WithTop Nat))

/-- Termination measure, second component: the total of the finite
distances over the graph's nodes.  A relaxation either turns an
infinite distance finite (first component shrinks) or strictly lowers a
finite one (second component shrinks). -/
def sumFin (D : List Nat) (dist : Nat → WithTop Nat) : Nat :=
  (D.map (fun x => finVal (dist x))).sum

/-- `List.set` preserves length, so `siftdownAux` does. -/
theorem siftdownAux_length {α : Type} (lt : α → α → Bool) (startpos : Nat) :
    ∀ (fuel : Nat) (heap : List α) (pos : Nat) (newitem : α),
      (siftdownAux lt startpos fuel heap pos newitem).length = heap.length := by
  intro fuel
  induction fuel with
  | zero => intro heap pos newitem; simp [siftdownAux]
  | succ n ih =>
    intro heap pos newitem
    simp only [siftdownAux]
    split
    · split
      · rw [ih]; simp
      · simp
    · simp

/-- `siftupAux` preserves length. -/
theorem siftupAux_length {α : Type} (lt : α → α → Bool) (startpos endpos : Nat) :
    ∀ (fuel : Nat) (heap : List α) (pos : Nat) (newitem : α),
      (siftupAux lt startpos endpos fuel heap pos newitem).length = heap.length := by
  intro fuel
  induction fuel with
  | zero =>
    intro heap pos newitem
    simp [siftupAux, siftdown, siftdownAux_length]
  | succ n ih =>
    intro heap pos newitem
    simp only [siftupAux]
    split
    · rw [ih]; simp
    · simp [siftdown, siftdownAux_length]

/-- `siftup` preserves length. -/
theorem siftup_length {α : Type} (lt : α → α → Bool) (heap : List α) (pos : Nat) :
    (siftup lt heap pos).length = heap.length := by
  unfold siftup
  split
  · rw [siftupAux_length]
  · rfl

/-- A successful pop removes exactly one element. -/
theorem heappop_some_length {α : Type} (lt : α → α → Bool) {heap : List α}
    {x : α} {rest : List α} (h : heappop lt heap = some (x, rest)) :
    rest.length + 1 = heap.length := by
  unfold heappop at h
  split at h
  · exact absurd h (by simp)
  · rename_i lastelt hlast
    have hne : heap ≠ [] := by
      intro hnil; rw [hnil] at hlast; simp at hlast
    have hlen := heap.length_dropLast
    have hnz : heap.length ≠ 0 := by simpa using hne
    split at h
    · rename_i hemp
      have hdrop : heap.dropLast = [] := by simpa using hemp
      injection h with h
      cases h
      rw [hdrop] at hlen
      simp only [List.length_nil] at hlen
      simp only [List.length_nil]
      omega
    · injection h with h
      cases h
      rw [siftup_length]
      simp only [List.length_set]
      omega

/-- The relaxation fold lowers distances pointwise, and either leaves
the whole state's queue unchanged or strictly lowers the distance of
one of the listed neighbors. -/
theorem relaxAll_spec (current_distance current_node : Nat) :
    ∀ (adj : List (Nat × Nat)) (st : DState),
      (∀ x, (relaxAll current_distance current_node adj st).dist x ≤ st.dist x) ∧
      (((relaxAll current_distance current_node adj st).queue = st.queue ∧
          (relaxAll current_distance current_node adj st).dist = st.dist) ∨
        ∃ x, x ∈ adj.map Prod.fst ∧
          (relaxAll current_distance current_node adj st).dist x < st.dist x) := by
  intro adj
  induction adj with
  | nil => intro st; exact ⟨fun x => le_refl _, Or.inl ⟨rfl, rfl⟩⟩
  | cons nw rest ih =>
    intro st
    have hstep : relaxAll current_distance current_node (nw :: rest) st =
        relaxAll current_distance current_node rest
          (relaxStep current_distance current_node st nw) := rfl
    obtain ⟨ihle, ihcase⟩ := ih (relaxStep current_distance current_node st nw)
    by_cases hc :
        ((current_distance + nw.2 : Nat) : WithTop Nat) < st.dist nw.1
    · have hst1d : (relaxStep current_distance current_node st nw).dist =
          fun x => if x = nw.1 then ((current_distance + nw.2 : Nat) : WithTop Nat)
            else st.dist x := by
        simp only [relaxStep, if_pos hc]
      constructor
      · intro x
        rw [hstep]
        refine le_trans (ihle x) ?_
        rw [hst1d]
        by_cases hx : x = nw.1
        · subst hx; simp only [if_pos rfl]; exact le_of_lt hc
        · simp only [if_neg hx]; exact le_refl _
      · right
        refine ⟨nw.1, by simp, ?_⟩
        rw [hstep]
        refine lt_of_le_of_lt (ihle nw.1) ?_
        rw [hst1d]
        simp only [if_pos rfl]
        exact hc
    · have hst1d : (relaxStep current_distance current_node st nw).dist = st.dist := by
        simp only [relaxStep, if_neg hc]
      have hst1q : (relaxStep current_distance current_node st nw).queue = st.queue := by
        simp only [relaxStep, if_neg hc]
      constructor
      · intro x
        rw [hstep]
        refine le_trans (ihle x) ?_
        rw [hst1d]
      · rcases ihcase with ⟨hq, hd⟩ | ⟨x, hx, hlt⟩
        · left
          constructor
          · rw [hstep, hq, hst1q]
          · rw [hstep, hd, hst1d]
        · right
          refine ⟨x, by rw [List.map_cons]; exact List.mem_cons_of_mem _ hx, ?_⟩
          rw [hstep]
          calc (relaxAll current_distance current_node rest
                  (relaxStep current_distance current_node st nw)).dist x
              < (relaxStep current_distance current_node st nw).dist x := hlt
            _ = st.dist x := by rw [hst1d]

/-- `finVal` is monotone below a finite bound. -/
theorem finVal_le_of_le {a b : WithTop Nat} (h : a ≤ b) (hb : b ≠ ⊤) :
    finVal a ≤ finVal b := by
  match a, b with
  | Option.none, b => exact absurd (top_le_iff.mp h) hb
  | Option.some m, Option.none => exact absurd rfl hb
  | Option.some m, Option.some n =>
    have hmn : m ≤ n := WithTop.some_le_some.mp h
    simpa [finVal] using hmn

/-- `finVal` is strictly monotone below a finite bound. -/
theorem finVal_lt_of_lt {a b : WithTop Nat} (h : a < b) (hb : b ≠ ⊤) :
    finVal a < finVal b := by
  match a, b with
  | Option.none, b => exact absurd (lt_of_lt_of_le h le_top) (lt_irrefl _)
  | Option.some m, Option.none => exact absurd rfl hb
  | Option.some m, Option.some n =>
    have hmn : m < n := WithTop.some_lt_some.mp h
    simpa [finVal] using hmn

/-- Pointwise nonincrease plus one witnessed strict decrease on `D`
make the `(topCount, sumFin)` pair lexicographically smaller. -/
theorem measure_pair_lt (D : List Nat) (f g : Nat → WithTop Nat)
    (hle : ∀ x, f x ≤ g x) (hstrict : ∃ x, x ∈ D ∧ f x < g x) :
    topCount D f < topCount D g ∨
      (topCount D f = topCount D g ∧ sumFin D f < sumFin D g) := by
  have htopimp : ∀ x, f x = ⊤ → g x = ⊤ := by
    intro x hfx
    have := hle x
    rw [hfx] at this
    exact top_le_iff.mp this
  have htc : topCount D f ≤ topCount D g := by
    apply List.countP_mono_left
    intro x _ hfx
    simp only [beq_iff_eq] at hfx ⊢
    exact htopimp x hfx
  rcases Nat.lt_or_ge (topCount D f) (topCount D g) with hlt | hge
  · exact Or.inl hlt
  · have heq : topCount D f = topCount D g := le_antisymm htc hge
    right
    refine ⟨heq, ?_⟩
    have hiff : ∀ x ∈ D, (f x = ⊤ ↔ g x = ⊤) := by
      intro x hx
      constructor
      · exact htopimp x
      · intro hgx
        by_contra hfx
        -- counting argument: with one strict inclusion the counts differ
        have : topCount D f < topCount D g := by
          unfold topCount
          have hsplit : ∃ l1 l2, D = l1 ++ x :: l2 := List.append_of_mem hx
          obtain ⟨l1, l2, rfl⟩ := hsplit
          have m1 : List.countP (fun y => f y == (⊤ : WithTop Nat)) l1 ≤
              List.countP (fun y => g y == (⊤ : WithTop Nat)) l1 := by
            apply List.countP_mono_left
            intro y _ hy
            simp only [beq_iff_eq] at hy ⊢
            exact htopimp y hy
          have m2 : List.countP (fun y => f y == (⊤ : WithTop Nat)) l2 ≤
              List.countP (fun y => g y == (⊤ : WithTop Nat)) l2 := by
            apply List.countP_mono_left
            intro y _ hy
            simp only [beq_iff_eq] at hy ⊢
            exact htopimp y hy
          have hcf := List.countP_cons_of_neg (fun y => f y == (⊤ : WithTop Nat))
            (l := l2) (a := x) (by simpa using hfx)
          have hcg := List.countP_cons_of_pos (fun y => g y == (⊤ : WithTop Nat))
            (l := l2) (a := x) (by simpa using hgx)
          rw [List.countP_append, List.countP_append, hcf, hcg]
          omega
        omega
    obtain ⟨x0, hx0D, hx0⟩ := hstrict
    have hg0fin : g x0 ≠ ⊤ := by
      intro hgtop
      have hftop : f x0 = ⊤ := (hiff x0 hx0D).mpr hgtop
      rw [hftop, hgtop] at hx0
      exact lt_irrefl _ hx0
    have hvle : ∀ x ∈ D, finVal (f x) ≤ finVal (g x) := by
      intro x hx
      by_cases hgx : g x = ⊤
      · rw [(hiff x hx).mpr hgx, hgx]
      · exact finVal_le_of_le (hle x) hgx
    have hvlt : finVal (f x0) < finVal (g x0) := finVal_lt_of_lt hx0 hg0fin
    unfold sumFin
    obtain ⟨l1, l2, rfl⟩ := List.append_of_mem hx0D
    simp only [List.map_append, List.map_cons, List.sum_append, List.sum_cons]
    have s1 : ((l1.map fun x => finVal (f x)).sum) ≤ ((l1.map fun x => finVal (g x)).sum) :=
      List.sum_le_sum (fun y hy => hvle y (by simp [hy]))
    have s2 : ((l2.map fun x => finVal (f x)).sum) ≤ ((l2.map fun x => finVal (g x)).sum) :=
      List.sum_le_sum (fun y hy => hvle y (by simp [hy]))
    omega

/-- Every neighbor named by an adjacency list of `g` is in
`allNodes g`. -/
theorem mem_allNodes_of_lookupG {g : Graph} {u : Nat} {adj : List (Nat × Nat)}
    (h : lookupG g u = some adj) {p : Nat × Nat} (hp : p ∈ adj) :
    p.1 ∈ allNodes g := by
  unfold lookupG at h
  rcases hf : g.find? (fun q => q.1 == u) with _ | entry <;> rw [hf] at h
  · simp at h
  · simp at h
    have hmem : entry ∈ g := List.mem_of_find?_eq_some hf
    subst h
    unfold allNodes
    apply List.mem_append_right
    rw [List.mem_flatten]
    refine ⟨entry.2.map Prod.fst, ?_, ?_⟩
    · rw [List.mem_map]
      exact ⟨entry, hmem, rfl⟩
    · exact List.mem_map_of_mem Prod.fst hp

/-- The Dijkstra while-loop (codagent_mccay.py lines 1155-1186).  Each
iteration pops an entry; entries for unknown or stale nodes and nodes
absent from the graph are skipped (the source logs them), otherwise all
outgoing edges are relaxed.  Termination: a relaxation strictly lowers
some node's distance, so `(topCount, sumFin)` drops lexicographically;
a non-relaxing iteration shortens the queue. -/
def dijkstraLoop (g : Graph) (dist : Nat → WithTop Nat) (distKeys : List Nat)
    (prev : Nat → Option Nat) (queue : List (Nat × Nat)) :
    (Nat → WithTop Nat) × List Nat × (Nat → Option Nat) :=
  match hpop : heappop tupLt queue with
  | none => (dist, distKeys, prev)
  | some (cdcn, queue1) =>
    if cdcn.2 ∈ distKeys then
      if dist cdcn.2 < (cdcn.1 : WithTop Nat) then
        dijkstraLoop g dist distKeys prev queue1
      else
        match hadj : lookupG g cdcn.2 with
        | none => dijkstraLoop g dist distKeys prev queue1
        | some adj =>
          let st := relaxAll cdcn.1 cdcn.2 adj ⟨dist, distKeys, prev, queue1⟩
          dijkstraLoop g st.dist st.distKeys st.prev st.queue
    else dijkstraLoop g dist distKeys prev queue1
termination_by (topCount (allNodes g) dist, sumFin (allNodes g) dist, queue.length)
decreasing_by
  · have hlen := heappop_some_length tupLt hpop
    apply Prod.Lex.right
    apply Prod.Lex.right
    omega
  · have hlen := heappop_some_length tupLt hpop
    apply Prod.Lex.right
    apply Prod.Lex.right
    omega
  · have hlen := heappop_some_length tupLt hpop
    obtain ⟨hle, hcase⟩ :=
      relaxAll_spec cdcn.1 cdcn.2 adj ⟨dist, distKeys, prev, queue1⟩
    rcases hcase with ⟨hq, hd⟩ | ⟨x, hx, hlt⟩
    · rw [hq, hd]
      apply Prod.Lex.right
      apply Prod.Lex.right
      exact (show queue1.length < queue.length by omega)
    · have hxD : x ∈ allNodes g := by
        rcases List.mem_map.mp hx with ⟨p, hp, hpx⟩
        rw [← hpx]
        exact mem_allNodes_of_lookupG hadj hp
      rcases measure_pair_lt (allNodes g)
          (relaxAll cdcn.1 cdcn.2 adj ⟨dist, distKeys, prev, queue1⟩).dist dist
          hle ⟨x, hxD, hlt⟩ with htc | ⟨htc, hsf⟩
      · exact Prod.Lex.left _ _ htc
      · rw [htc]
        apply Prod.Lex.right
        exact Prod.Lex.left _ _ hsf
  · have hlen := heappop_some_length tupLt hpop
    apply Prod.Lex.right
    apply Prod.Lex.right
    omega

/-- `dijkstra(graph, start)` (codagent_mccay.py lines 1142-1153):
distances start at infinity except `start` at 0 (the assignment
`shortest_paths[start] = 0` also adds the key when absent),
predecessors start at `None`, and the queue at `[(0, start)]`.
Returns the distance dict (as its function view plus key list) and the
predecessor dict. -/
def dijkstra (g : Graph) (start : Nat) :
    (Nat → WithTop Nat) × List Nat × (Nat → Option Nat) :=
  let dist0 : Nat → WithTop Nat := fun v => if v = start then ((0 : Nat) : WithTop Nat) else ⊤
  let keys0 : List Nat := if start ∈ graphKeys g then graphKeys g else graphKeys g ++ [start]
  dijkstraLoop g dist0 keys0 (fun _ => none) [(0, start)]

/-- A walk in the graph from `s` with a given total edge weight: the
mathematical yardstick for "true shortest-path distance from start". -/
inductive PathTo (g : Graph) (s : Nat) : Nat → Nat → Prop
  | refl : PathTo g s s 0
  | step {u v w n : Nat} (hp : PathTo g s u n) {adj : List (Nat × Nat)}
      (hu : lookupG g u = some adj) (hv : (v, w) ∈ adj) : PathTo g s v (n + w)

/-- The three-room example graph of the spec's Dijkstra test. -/
def exGraph : Graph := [(1, [(2, 1)]), (2, [(1, 1), (3, 1)]), (3, [])]

/-- Scheduler states reachable by any sequence of
`enqueue_prioritized_state` calls: the heap starts empty (as in
`NPC.__init__`), with any current state, cooldown map and event
history. -/
inductive ReachableNPC : NPCState → Prop
  | start (s : PState) (allowed : List (String × Nat)) (ev : List (String × String)) :
      ReachableNPC { state := s, state_heap := [], next_state_allowed := allowed, events := ev }
  | step (npc : NPCState) (now : Nat) (priority : Int) (x : PState) :
      ReachableNPC npc → ReachableNPC (enqueue_prioritized_state npc now priority x)

/-! Supporting lemmas for the transition-table claims. -/

/-- `seriesSetAt` keeps the Series' index unchanged. -/
theorem seriesSetAt_labels (s : RoomSeries) (lbl : String) (v : QEdge) :
    (seriesSetAt s lbl v).map Prod.fst = s.map Prod.fst := by
  unfold seriesSetAt
  rw [List.map_map]
  apply List.map_congr_left
  intro p _
  by_cases h : p.1 = lbl <;> simp [h]

/-- A listed room makes the membership test true. -/
theorem qtHasRoom_of_mem {qt : QTable} {r : Nat} {s : RoomSeries} (h : (r, s) ∈ qt) :
    qtHasRoom qt r = true := by
  unfold qtHasRoom
  rw [List.any_eq_true]
  exact ⟨(r, s), h, by simp⟩

/-- With duplicate-free keys, the dict read returns the listed
Series. -/
theorem qtGet_of_mem {qt : QTable} {r : Nat} {s : RoomSeries}
    (hnd : (qt.map Prod.fst).Nodup) (h : (r, s) ∈ qt) : qtGet qt r = s := by
  induction qt with
  | nil => cases h
  | cons q rest ih =>
    rw [List.map_cons, List.nodup_cons] at hnd
    rcases List.mem_cons.mp h with hq | hrest
    · subst hq
      unfold qtGet
      simp [List.find?_cons_of_pos]
    · have hq1 : q.1 ≠ r := by
        intro hqr
        exact hnd.1 (hqr ▸ List.mem_map_of_mem Prod.fst hrest)
      unfold qtGet
      rw [List.find?_cons_of_neg _ (by simpa using hq1)]
      exact ih hnd.2 hrest

/-- Inserting into the adjacency dict only adds the given key. -/
theorem dictInsertNat_mem {l : List (Nat × Nat)} {k v : Nat} {q : Nat × Nat}
    (h : q ∈ dictInsertNat l k v) : q ∈ l ∨ q.1 = k := by
  unfold dictInsertNat at h
  split at h
  · rcases List.mem_map.mp h with ⟨p, hp, hq⟩
    by_cases hpk : p.1 = k
    · rw [if_pos hpk] at hq
      right
      rw [← hq]
    · rw [if_neg hpk] at hq
      left
      rw [← hq]
      exact hp
  · rcases List.mem_append.mp h with hl | hr
    · exact Or.inl hl
    · right
      have : q = (k, v) := by simpa using hr
      rw [this]

/-! Claim theorems for the transition table. -/

/-- C1.  For a confirmed successful move recorded with a compass-label
command sequence, the destination of the existing edge for that label
is updated in place: the room keeps exactly its previous labels (no
edge is appended), the compass edge keeps its weight and now points at
the destination, every other edge of the room is unchanged, and every
other room is untouched.  The compass branch of
`record_successful_move` is modelled from the spec because the source's
main loop is truncated before the movement-recording code. -/
theorem c1_compass_update_in_place (st : AgentTable) (A : Nat) (cmd : String) (B : Nat)
    (s : RoomSeries) (hcmd : cmd ∈ actionspace) (hmem : (A, s) ∈ st.qTable) :
    ∃ s1, (A, s1) ∈ (record_successful_move st A cmd B).qTable ∧
      s1.map Prod.fst = s.map Prod.fst ∧
      (∀ w d, (cmd, (w, d)) ∈ s → (cmd, (w, B)) ∈ s1) ∧
      (∀ e ∈ s, e.1 ≠ cmd → e ∈ s1) ∧
      (∀ r t, (r, t) ∈ st.qTable → r ≠ A →
        (r, t) ∈ (record_successful_move st A cmd B).qTable) := by
  refine ⟨s.map (fun e => if e.1 = cmd then (e.1, (e.2.1, B)) else e), ?_, ?_, ?_, ?_, ?_⟩
  · unfold record_successful_move
    rw [if_pos hcmd]
    have := List.mem_map_of_mem
      (fun p : Nat × RoomSeries =>
        if p.1 = A then
          (p.1, p.2.map (fun e => if e.1 = cmd then (e.1, (e.2.1, B)) else e))
        else p) hmem
    simpa using this
  · rw [List.map_map]
    apply List.map_congr_left
    intro e _
    by_cases h : e.1 = cmd <;> simp [h]
  · intro w d hwd
    have := List.mem_map_of_mem (fun e : String × QEdge =>
      if e.1 = cmd then (e.1, (e.2.1, B)) else e) hwd
    simpa using this
  · intro e he hne
    have := List.mem_map_of_mem (fun e : String × QEdge =>
      if e.1 = cmd then (e.1, (e.2.1, B)) else e) he
    simpa only [if_neg hne] using this
  · intro r t hrt hne
    unfold record_successful_move
    rw [if_pos hcmd]
    have := List.mem_map_of_mem
      (fun p : Nat × RoomSeries =>
        if p.1 = A then
          (p.1, p.2.map (fun e => if e.1 = cmd then (e.1, (e.2.1, B)) else e))
        else p) hrt
    simpa only [if_neg hne] using this

/-- Witness for C1 at the `main`-seeded table: recording `N` from room
0 to room 7. -/
theorem c1_compass_update_in_place_witness :
    ∃ s1, (0, s1) ∈ (record_successful_move mainInitialTable 0 "N" 7).qTable ∧
      s1.map Prod.fst =
        (actionspace.map (fun a => (a, ((0 : Int), 0)))).map Prod.fst ∧
      (∀ w d, ("N", (w, d)) ∈ actionspace.map (fun a => (a, ((0 : Int), 0))) →
        ("N", (w, 7)) ∈ s1) ∧
      (∀ e ∈ actionspace.map (fun a => (a, ((0 : Int), 0))), e.1 ≠ "N" → e ∈ s1) ∧
      (∀ r t, (r, t) ∈ mainInitialTable.qTable → r ≠ 0 →
        (r, t) ∈ (record_successful_move mainInitialTable 0 "N" 7).qTable) :=
  c1_compass_update_in_place mainInitialTable 0 "N" 7
    (actionspace.map (fun a => (a, ((0 : Int), 0)))) (by decide) (by decide)

/-- C2.  Recording a brain move from a listed room under a fresh
command-sequence label reports a novel discovery exactly when no
existing edge of that room already reaches the destination; in that
case it appends exactly one new edge, keyed by the literal command text
with weight `2.0` and that destination, at the end of the room's
Series, leaving every other room untouched and the key set unchanged;
otherwise (a redundant rediscovery) the table is left entirely
unchanged. -/
theorem c2_novel_vs_redundant (qt : QTable) (oldloc : Nat) (cmd : String) (dest : Nat)
    (s : RoomSeries) (hnd : (qt.map Prod.fst).Nodup) (hmem : (oldloc, s) ∈ qt)
    (hfresh : seriesHasLabel s cmd = false) :
    ((record_brain_move qt oldloc cmd dest).1 = true ↔ ∀ e ∈ s, e.2.2 ≠ dest) ∧
    ((record_brain_move qt oldloc cmd dest).1 = true →
      (oldloc, s ++ [(cmd, (2, dest))]) ∈ (record_brain_move qt oldloc cmd dest).2 ∧
      (∀ r t, (r, t) ∈ qt → r ≠ oldloc → (r, t) ∈ (record_brain_move qt oldloc cmd dest).2) ∧
      (record_brain_move qt oldloc cmd dest).2.map Prod.fst = qt.map Prod.fst) ∧
    ((record_brain_move qt oldloc cmd dest).1 = false →
      (record_brain_move qt oldloc cmd dest).2 = qt) := by
  have hget : qtGet qt oldloc = s := qtGet_of_mem hnd hmem
  have hroom : qtHasRoom qt oldloc = true := qtHasRoom_of_mem hmem
  have hcond : (qtHasRoom qt oldloc && ! seriesHasLabel (qtGet qt oldloc) cmd) = true := by
    rw [hroom, hget, hfresh]
    rfl
  cases hany : (qtGet qt oldloc).any (fun p => p.2.2 == dest) with
  | true =>
    -- an existing edge already reaches `dest`: redundant
    have hres : record_brain_move qt oldloc cmd dest = (false, qt) := by
      unfold record_brain_move
      rw [if_pos hcond, hany]
      rfl
    rw [hres]
    refine ⟨?_, ?_, ?_⟩
    · apply iff_of_false (by simp)
      intro hall
      rw [hget] at hany
      rcases List.any_eq_true.mp hany with ⟨e, he, hdest⟩
      exact hall e he (by simpa using hdest)
    · intro h
      cases h
    · intro _
      rfl
  | false =>
    -- novel destination: append the new edge
    have hres : record_brain_move qt oldloc cmd dest =
        (true, qtSet qt oldloc (s ++ [(cmd, (2, dest))])) := by
      unfold record_brain_move
      rw [if_pos hcond, hany, hget]
      rfl
    rw [hres]
    refine ⟨?_, ?_, ?_⟩
    · apply iff_of_true rfl
      intro e he hdest
      rw [hget] at hany
      have hcontra : s.any (fun p => p.2.2 == dest) = true :=
        List.any_eq_true.mpr ⟨e, he, by simp [hdest]⟩
      rw [hany] at hcontra
      cases hcontra
    · intro _
      unfold qtSet
      rw [if_pos hroom]
      refine ⟨?_, ?_, ?_⟩
      · have := List.mem_map_of_mem
          (fun p : Nat × RoomSeries =>
            if p.1 = oldloc then (oldloc, s ++ [(cmd, (2, dest))]) else p) hmem
        simpa using this
      · intro r t hrt hne
        have := List.mem_map_of_mem
          (fun p : Nat × RoomSeries =>
            if p.1 = oldloc then (oldloc, s ++ [(cmd, (2, dest))]) else p) hrt
        simpa only [if_neg hne] using this
      · rw [List.map_map]
        apply List.map_congr_left
        intro p _
        by_cases h : p.1 = oldloc <;> simp [h]
    · intro h
      cases h

/-- Witness for C2: room 1 has a single `N` edge to room 2; a fresh
command sequence to room 3 is novel. -/
theorem c2_novel_vs_redundant_witness :
    ((record_brain_move [(1, [("N", ((0 : Int), 2))])] 1 "go east;" 3).1 = true ↔
      ∀ e ∈ [("N", ((0 : Int), 2))], e.2.2 ≠ 3) ∧
    ((record_brain_move [(1, [("N", ((0 : Int), 2))])] 1 "go east;" 3).1 = true →
      (1, [("N", ((0 : Int), 2))] ++ [("go east;", (2, 3))]) ∈
        (record_brain_move [(1, [("N", ((0 : Int), 2))])] 1 "go east;" 3).2 ∧
      (∀ r t, (r, t) ∈ [(1, [("N", ((0 : Int), 2))])] → r ≠ 1 →
        (r, t) ∈ (record_brain_move [(1, [("N", ((0 : Int), 2))])] 1 "go east;" 3).2) ∧
      (record_brain_move [(1, [("N", ((0 : Int), 2))])] 1 "go east;" 3).2.map Prod.fst =
        [(1, [("N", ((0 : Int), 2))])].map Prod.fst) ∧
    ((record_brain_move [(1, [("N", ((0 : Int), 2))])] 1 "go east;" 3).1 = false →
      (record_brain_move [(1, [("N", ((0 : Int), 2))])] 1 "go east;" 3).2 =
        [(1, [("N", ((0 : Int), 2))])]) :=
  c2_novel_vs_redundant [(1, [("N", ((0 : Int), 2))])] 1 "go east;" 3
    [("N", ((0 : Int), 2))] (by decide) (by decide) (by decide)

/-- C3.  After `update_recall_edges T`: the process-wide recall target
is `(-100, T)`; the table keeps exactly its rooms; a room without a
recall edge is untouched; a room with a recall edge keeps its labels,
has its recall edge equal to `(-100, T)` and all other edges unchanged;
and a room added afterwards through `add_loc_to_qtable` is created with
recall edge `(-100, T)`. -/
theorem c3_recall_fanout (st : AgentTable) (T : Nat) :
    (update_recall_edges st T).apparentrecallroom = ((-100 : Int), T) ∧
    (update_recall_edges st T).qTable.map Prod.fst = st.qTable.map Prod.fst ∧
    (∀ r s, (r, s) ∈ st.qTable → seriesHasLabel s "recall" = false →
      (r, s) ∈ (update_recall_edges st T).qTable) ∧
    (∀ r s, (r, s) ∈ st.qTable → seriesHasLabel s "recall" = true →
      ∃ s1, (r, s1) ∈ (update_recall_edges st T).qTable ∧
        s1.map Prod.fst = s.map Prod.fst ∧
        (∀ e ∈ s1, e.1 = "recall" → e.2 = ((-100 : Int), T)) ∧
        (∀ e ∈ s, e.1 ≠ "recall" → e ∈ s1)) ∧
    (∀ loc, qtHasRoom (update_recall_edges st T).qTable loc = false →
      (loc, defaultSeries ((-100 : Int), T)) ∈
        (add_loc_to_qtable (update_recall_edges st T) loc).qTable ∧
      ("recall", ((-100 : Int), T)) ∈ defaultSeries ((-100 : Int), T)) := by
  refine ⟨rfl, ?_, ?_, ?_, ?_⟩
  · unfold update_recall_edges
    rw [List.map_map]
    apply List.map_congr_left
    intro p _
    by_cases h : seriesHasLabel p.2 "recall" <;> simp [h]
  · intro r s hmem hno
    unfold update_recall_edges
    have := List.mem_map_of_mem
      (fun p : Nat × RoomSeries =>
        if seriesHasLabel p.2 "recall" then
          (p.1, seriesSetAt p.2 "recall" (-100, T)) else p) hmem
    simpa only [hno, Bool.false_eq_true, if_false] using this
  · intro r s hmem hyes
    refine ⟨seriesSetAt s "recall" (-100, T), ?_, seriesSetAt_labels s _ _, ?_, ?_⟩
    · unfold update_recall_edges
      have := List.mem_map_of_mem
        (fun p : Nat × RoomSeries =>
          if seriesHasLabel p.2 "recall" then
            (p.1, seriesSetAt p.2 "recall" (-100, T)) else p) hmem
      simpa only [hyes, if_true] using this
    · intro e he hrec
      unfold seriesSetAt at he
      rcases List.mem_map.mp he with ⟨p, _, hp⟩
      by_cases h : p.1 = "recall"
      · rw [if_pos h] at hp
        rw [← hp]
      · rw [if_neg h] at hp
        rw [← hp] at hrec
        exact absurd hrec h
    · intro e he hne
      unfold seriesSetAt
      have := List.mem_map_of_mem
        (fun p : String × QEdge => if p.1 = "recall" then (p.1, (-100, T)) else p) he
      simpa only [if_neg hne] using this
  · intro loc hno
    constructor
    · unfold add_loc_to_qtable
      rw [hno]
      exact List.mem_append_right _ (List.mem_singleton.mpr rfl)
    · unfold defaultSeries
      simp

/-- Witness for C3 at a two-room table. -/
theorem c3_recall_fanout_witness :
    (update_recall_edges
      { qTable := [(1, [("recall", ((6 : Int), 0))]), (2, [("N", ((0 : Int), 5))])],
        apparentrecallroom := (6, 0) } 5).apparentrecallroom = ((-100 : Int), 5) ∧
    ("recall", ((-100 : Int), 5)) ∈ defaultSeries ((-100 : Int), 5) :=
  ⟨(c3_recall_fanout
      { qTable := [(1, [("recall", ((6 : Int), 0))]), (2, [("N", ((0 : Int), 5))])],
        apparentrecallroom := (6, 0) } 5).1,
   ((c3_recall_fanout
      { qTable := [(1, [("recall", ((6 : Int), 0))]), (2, [("N", ((0 : Int), 5))])],
        apparentrecallroom := (6, 0) } 5).2.2.2.2 3 (by decide)).2⟩

/-- C8, amended.  The graph's key list is exactly the table's room
list — so room `0` appears as a graph key precisely when the table
contains room `0`, which the `main` seeding does produce — while no
edge of the exported graph ever has destination `0` (destination-`0`
edges are filtered out). -/
theorem c8_no_zero_destinations (qt : QTable) :
    (qtable_to_graph qt).map Prod.fst = qt.map Prod.fst ∧
    (∀ p ∈ qtable_to_graph qt, ∀ q ∈ p.2, q.1 ≠ 0) := by
  constructor
  · unfold qtable_to_graph
    rw [List.map_map]
    apply List.map_congr_left
    intro p _
    rfl
  · intro p hp q hq
    unfold qtable_to_graph at hp
    rcases List.mem_map.mp hp with ⟨entry, _, hpe⟩
    have hfold : ∀ (l : List (String × QEdge)) (acc : List (Nat × Nat)),
        (∀ z ∈ acc, z.1 ≠ 0) →
        ∀ z ∈ l.foldl
          (fun acc e => if e.2.2 ≠ 0 then dictInsertNat acc e.2.2 1 else acc) acc,
          z.1 ≠ 0 := by
      intro l
      induction l with
      | nil => intro acc hacc z hz; exact hacc z hz
      | cons e rest ih =>
        intro acc hacc z hz
        rw [List.foldl_cons] at hz
        by_cases hd : e.2.2 ≠ 0
        · rw [if_pos hd] at hz
          refine ih (dictInsertNat acc e.2.2 1) ?_ z hz
          intro y hy
          rcases dictInsertNat_mem hy with hmem | hk
          · exact hacc y hmem
          · rw [hk]
            exact hd
        · rw [if_neg hd] at hz
          exact ih acc hacc z hz
    have hq2 : q ∈ entry.2.foldl
        (fun acc e => if e.2.2 ≠ 0 then dictInsertNat acc e.2.2 1 else acc) [] := by
      have : p.2 = entry.2.foldl
          (fun acc e => if e.2.2 ≠ 0 then dictInsertNat acc e.2.2 1 else acc) [] := by
        rw [← hpe]
      rw [← this]
      exact hq
    exact hfold entry.2 [] (by intro z hz; cases hz) q hq2

/-- Witness for C8's amended statement at a one-room table. -/
theorem c8_no_zero_destinations_witness :
    ((2 : Nat), (1 : Nat)).1 ≠ 0 :=
  (c8_no_zero_destinations [(1, [("N", ((0 : Int), 2))])]).2
    (1, [(2, 1)]) (by decide) (2, 1) (by decide)

/-- C8, counterexample to the claim as stated: the table seeded by
`main` (a reachable transition-table state) exports a graph that
contains node `0` as a key. -/
theorem c8_counterexample_zero_is_graph_key :
    ReachableTable mainInitialTable ∧
    (0, ([] : List (Nat × Nat))) ∈ qtable_to_graph mainInitialTable.qTable :=
  ⟨ReachableTable.init, by decide⟩

/-! Supporting lemmas for the text-normalizer claim. -/

/-- The head surviving `dropWhile p` does not satisfy `p` (defaulting
to a non-`p` element). -/
theorem headD_dropWhile_eq_false (p : Char → Bool) (l : List Char) (d : Char)
    (hd : p d = false) : p ((l.dropWhile p).headD d) = false := by
  induction l with
  | nil => simpa [List.dropWhile]
  | cons c rest ih =>
    cases hpc : p c with
    | true => rw [List.dropWhile_cons_of_pos hpc]; exact ih
    | false =>
      rw [List.dropWhile_cons_of_neg (by simp [hpc])]
      simpa using hpc

/-- A list whose head (defaulting to a non-`p` element) fails `p` is
unchanged by `dropWhile p`. -/
theorem dropWhile_eq_self_of_headD (p : Char → Bool) (l : List Char) (d : Char)
    (hd : p d = false) (hl : p (l.headD d) = false) : l.dropWhile p = l := by
  cases l with
  | nil => rfl
  | cons c rest =>
    simp only [List.headD_cons] at hl
    exact List.dropWhile_cons_of_neg (by simp [hl])

/-- Right-stripping never makes the head whitespace. -/
theorem pyStripRight_headD (d : Char) (hd : pyIsspace d = false) :
    ∀ l : List Char, pyIsspace (l.headD d) = false →
      pyIsspace ((pyStripRight l).headD d) = false := by
  intro l
  induction l using List.reverseRecOn with
  | nil =>
    intro _
    show pyIsspace ((pyStripRight []).headD d) = false
    exact hd
  | append_singleton Y a ih =>
    intro hl
    unfold pyStripRight
    simp only [List.reverse_append, List.reverse_singleton, List.singleton_append]
    cases hpa : pyIsspace a with
    | true =>
      rw [List.dropWhile_cons_of_pos hpa]
      cases Y with
      | nil =>
        simp only [List.nil_append, List.headD_cons] at hl
        rw [hpa] at hl
        cases hl
      | cons y ys =>
        have hyl : pyIsspace ((y :: ys).headD d) = false := by
          simpa using hl
        exact ih hyl
    | false =>
      rw [List.dropWhile_cons_of_neg (by simp [hpa])]
      simp only [List.reverse_cons, List.reverse_reverse]
      exact hl

/-- The reverse of a right-strip is a left `dropWhile` of the
reverse. -/
theorem pyStripRight_reverse (l : List Char) :
    (pyStripRight l).reverse = l.reverse.dropWhile pyIsspace := by
  unfold pyStripRight
  rw [List.reverse_reverse]

/-- Elements of the stripped list come from the original. -/
theorem mem_of_mem_pyStrip {l : List Char} {c : Char} (h : c ∈ pyStrip l) : c ∈ l := by
  unfold pyStrip pyStripRight pyStripLeft at h
  rw [List.mem_reverse] at h
  have h1 := (List.dropWhile_sublist (l := (l.dropWhile pyIsspace).reverse) pyIsspace).mem h
  rw [List.mem_reverse] at h1
  exact (List.dropWhile_sublist pyIsspace).mem h1

/-- `str.strip` is idempotent. -/
theorem pyStrip_idem (l : List Char) : pyStrip (pyStrip l) = pyStrip l := by
  have hx : pyIsspace 'x' = false := by decide
  have hhead : pyIsspace ((pyStrip l).headD 'x') = false := by
    unfold pyStrip
    exact pyStripRight_headD 'x' hx (pyStripLeft l)
      (by unfold pyStripLeft; exact headD_dropWhile_eq_false pyIsspace l 'x' hx)
  have hleft : pyStripLeft (pyStrip l) = pyStrip l :=
    dropWhile_eq_self_of_headD pyIsspace (pyStrip l) 'x' hx hhead
  have hrevhead : pyIsspace ((pyStrip l).reverse.headD 'x') = false := by
    unfold pyStrip
    rw [pyStripRight_reverse]
    exact headD_dropWhile_eq_false pyIsspace (pyStripLeft l).reverse 'x' hx
  have hright : pyStripRight (pyStrip l) = pyStrip l := by
    unfold pyStripRight
    rw [dropWhile_eq_self_of_headD pyIsspace (pyStrip l).reverse 'x' hx hrevhead,
      List.reverse_reverse]
  show pyStripRight (pyStripLeft (pyStrip l)) = pyStrip l
  rw [hleft, hright]

/-- A text containing no escape character is unchanged by the ANSI
substitution. -/
theorem ansiSub_eq_self_of_no_esc :
    ∀ cs : List Char, (∀ c ∈ cs, c ≠ '\x1b') → ansiSub cs = cs := by
  intro cs
  induction cs with
  | nil =>
    intro _
    rw [ansiSub]
    rfl
  | cons c rest ih =>
    intro h
    have hc : c ≠ '\x1b' := h c (List.mem_cons_self c rest)
    have hm : ansiMatchRem (c :: rest) = none := by
      cases rest with
      | nil => rfl
      | cons c2 rest2 => simp [ansiMatchRem, hc]
    rw [ansiSub]
    split
    · rename_i rem hsome
      rw [hm] at hsome
      cases hsome
    · exact congrArg (c :: ·) (ih (fun x hx => h x (List.mem_cons_of_mem c hx)))

/-! The text-normalizer claim. -/

/-- C9.  `strip_unprintable` returns only printable characters, with
neither a leading nor a trailing whitespace character (stated through
head/last with a non-space default so the empty result is covered), and
it is idempotent. -/
theorem c9_strip_idempotent_printable (s : List Char) :
    (strip_unprintable s).all pyIsprintable = true ∧
    pyIsspace ((strip_unprintable s).headD 'x') = false ∧
    pyIsspace ((strip_unprintable s).getLastD 'x') = false ∧
    strip_unprintable (strip_unprintable s) = strip_unprintable s := by
  have hx : pyIsspace 'x' = false := by decide
  have hall : (strip_unprintable s).all pyIsprintable = true := by
    rw [List.all_eq_true]
    intro c hc
    have hcf : c ∈ (ansiSub s).filter pyIsprintable := mem_of_mem_pyStrip hc
    exact List.of_mem_filter hcf
  refine ⟨hall, ?_, ?_, ?_⟩
  · unfold strip_unprintable pyStrip
    exact pyStripRight_headD 'x' hx _
      (headD_dropWhile_eq_false pyIsspace _ 'x' hx)
  · rw [List.getLastD_eq_getLast?, ← List.head?_reverse, ← List.headD_eq_head?]
    show pyIsspace ((strip_unprintable s).reverse.headD 'x') = false
    unfold strip_unprintable pyStrip
    rw [pyStripRight_reverse]
    exact headD_dropWhile_eq_false pyIsspace _ 'x' hx
  · have hnoesc : ∀ c ∈ strip_unprintable s, c ≠ '\x1b' := by
      intro c hc hesc
      have := List.all_eq_true.mp hall c hc
      rw [hesc] at this
      exact absurd this (by decide)
    have hfilter : (strip_unprintable s).filter pyIsprintable = strip_unprintable s :=
      List.filter_eq_self.mpr (fun c hc => List.all_eq_true.mp hall c hc)
    show pyStrip ((ansiSub (strip_unprintable s)).filter pyIsprintable) = strip_unprintable s
    rw [ansiSub_eq_self_of_no_esc _ hnoesc, hfilter]
    show pyStrip (pyStrip ((ansiSub s).filter pyIsprintable)) = strip_unprintable s
    exact pyStrip_idem _

/-! Permutation facts about the heap operations: pushing is, up to
order, consing, and popping removes exactly one occurrence.  These are
the only heap facts the claims need (the worklist arguments below do
not depend on the min-heap ordering). -/

section HeapPerm

variable {α : Type} [DecidableEq α] (lt : α → α → Bool)

/-- Counting elements across a single `set` (stated with `getD` so the
read carries no proof argument). -/
theorem count_set_add (x a d : α) :
    ∀ (l : List α) (i : Nat), i < l.length →
      (l.set i a).count x + (if l.getD i d = x then 1 else 0) =
        l.count x + (if a = x then 1 else 0) := by
  intro l
  induction l with
  | nil => intro i hi; cases hi
  | cons b rest ih =>
    intro i hi
    cases i with
    | zero =>
      simp only [List.set_cons_zero, List.getD_cons_zero, List.count_cons, beq_iff_eq]
      omega
    | succ n =>
      have hn : n < rest.length := by
        simp only [List.length_cons] at hi
        omega
      have hrec := ih n hn
      simp only [List.set_cons_succ, List.getD_cons_succ, List.count_cons, beq_iff_eq]
      omega

/-- Overwriting position `i` with the element at position `j` and then
overwriting position `j` is, up to order, just overwriting position
`i`. -/
theorem set_set_of_get_perm (l : List α) (i j : Nat) (hi : i < l.length)
    (hj : j < l.length) (hij : i ≠ j) (a d : α) :
    List.Perm ((l.set i (l.getD j d)).set j a) (l.set i a) := by
  rw [List.perm_iff_count]
  intro x
  have hj1 : j < (l.set i (l.getD j d)).length := by simpa using hj
  have c2 := count_set_add x a d (l.set i (l.getD j d)) j hj1
  have c1 := count_set_add x (l.getD j d) d l i hi
  have c3 := count_set_add x a d l i hi
  have hgset : (l.set i (l.getD j d)).getD j d = l.getD j d := by
    have h1 : (l.set i (l.getD j d)).getD j d = (l.set i (l.getD j d))[j] :=
      List.getD_eq_getElem _ d hj1
    rw [h1, List.getElem_set_ne (by omega)]
    exact (List.getD_eq_getElem l d hj).symm
  simp only [hgset] at c2
  omega

/-- The sift-toward-root loop permutes the heap with `newitem` written
at the hole. -/
theorem siftdownAux_perm (sp : Nat) :
    ∀ (fuel : Nat) (heap : List α) (pos : Nat) (newitem : α), pos < heap.length →
      List.Perm (siftdownAux lt sp fuel heap pos newitem) (heap.set pos newitem) := by
  intro fuel
  induction fuel with
  | zero => intro heap pos item _; exact List.Perm.refl _
  | succ n ih =>
    intro heap pos item hpos
    show List.Perm (siftdownAux lt sp (n + 1) heap pos item) (heap.set pos item)
    rw [siftdownAux]
    split
    · rename_i hsp
      split
    -- the comparison moved the parent down: recurse at the parent index
      · have hpar : (pos - 1) / 2 < heap.length := by omega
        have hne : pos ≠ (pos - 1) / 2 := by omega
        refine (ih (heap.set pos (heap.getD ((pos - 1) / 2) item)) ((pos - 1) / 2) item
          (by simpa using hpar)).trans ?_
        exact set_set_of_get_perm heap pos ((pos - 1) / 2) hpos hpar
          (by omega) item item
      · exact List.Perm.refl _
    · exact List.Perm.refl _

/-- Setting the appended last slot. -/
theorem set_append_last (x y : α) : ∀ l : List α, (l ++ [x]).set l.length y = l ++ [y] := by
  intro l
  induction l with
  | nil => rfl
  | cons b rest ih => simp only [List.cons_append, List.length_cons, List.set_cons_succ, ih]

/-- Writing back the element already at a slot changes nothing. -/
theorem set_get_self : ∀ (l : List α) (i : Nat) (hi : i < l.length), l.set i (l[i]) = l := by
  intro l
  induction l with
  | nil => intro i hi; cases hi
  | cons b rest ih =>
    intro i hi
    cases i with
    | zero => rfl
    | succ n =>
      have hn : n < rest.length := by
        simp only [List.length_cons] at hi
        omega
      simp only [List.getElem_cons_succ, List.set_cons_succ, ih n hn]

/-- `heappush` is consing, up to order. -/
theorem heappush_perm (heap : List α) (item : α) :
    List.Perm (heappush lt heap item) (item :: heap) := by
  unfold heappush siftdown
  have h := siftdownAux_perm lt 0 heap.length (heap ++ [item]) heap.length item (by simp)
  refine h.trans ?_
  rw [set_append_last]
  exact List.perm_append_singleton item heap

/-- The sift-toward-leaves loop permutes the heap with `newitem`
written at the hole. -/
theorem siftupAux_perm (sp ep : Nat) :
    ∀ (fuel : Nat) (heap : List α) (pos : Nat) (newitem : α), pos < heap.length →
      ep ≤ heap.length →
      List.Perm (siftupAux lt sp ep fuel heap pos newitem) (heap.set pos newitem) := by
  intro fuel
  induction fuel with
  | zero =>
    intro heap pos item hpos _
    show List.Perm (siftdown lt sp (heap.set pos item) pos item) (heap.set pos item)
    unfold siftdown
    refine (siftdownAux_perm lt sp pos (heap.set pos item) pos item (by simpa using hpos)).trans ?_
    rw [List.set_set]
  | succ n ih =>
    intro heap pos item hpos hep
    show List.Perm (siftupAux lt sp ep (n + 1) heap pos item) (heap.set pos item)
    rw [siftupAux]
    split
    · rename_i hchild
      have hcbound : siftupChild lt ep heap pos item < ep := by
        unfold siftupChild
        split <;> rename_i hcond
        · rw [Bool.and_eq_true] at hcond
          have := of_decide_eq_true hcond.1
          omega
        · omega
      have hclen : siftupChild lt ep heap pos item < heap.length := lt_of_lt_of_le hcbound hep
      have hcgt : pos < siftupChild lt ep heap pos item := by
        unfold siftupChild
        split <;> omega
      refine (ih (heap.set pos (heap.getD (siftupChild lt ep heap pos item) item))
        (siftupChild lt ep heap pos item) item (by simpa using hclen)
        (by simpa using hep)).trans ?_
      exact set_set_of_get_perm heap pos (siftupChild lt ep heap pos item) hpos hclen
        (by omega) item item
    · unfold siftdown
      refine (siftdownAux_perm lt sp pos (heap.set pos item) pos item
        (by simpa using hpos)).trans ?_
      rw [List.set_set]

/-- `_siftup` permutes the heap. -/
theorem siftup_perm (heap : List α) (pos : Nat) (hpos : pos < heap.length) :
    List.Perm (siftup lt heap pos) heap := by
  unfold siftup
  split
  · rename_i item hget
    have hitem : heap[pos] = item := by
      have := List.get?_eq_getElem? heap pos
      rw [hget] at this
      have h2 := List.getElem?_eq_getElem hpos
      rw [h2] at this
      exact (Option.some.injEq _ _).mp this.symm
    refine (siftupAux_perm lt pos heap.length heap.length heap pos item hpos (le_refl _)).trans ?_
    rw [← hitem, set_get_self heap pos hpos]
  · exact List.Perm.refl _

/-- A successful `heappop` splits the heap, up to order, into the
returned element and the returned remainder. -/
theorem heappop_perm {heap : List α} {x : α} {rest : List α}
    (h : heappop lt heap = some (x, rest)) : List.Perm heap (x :: rest) := by
  unfold heappop at h
  split at h
  · exact absurd h (by simp)
  · rename_i lastelt hlast
    have hne : heap ≠ [] := by
      intro hnil
      rw [hnil] at hlast
      cases hlast
    have hsplit : heap.dropLast ++ [heap.getLast hne] = heap := List.dropLast_append_getLast hne
    have hlasteq : heap.getLast hne = lastelt := by
      have := List.getLast?_eq_getLast heap hne
      rw [hlast] at this
      exact (Option.some.injEq _ _).mp this.symm
    split at h
    · rename_i hemp
      have hdrop : heap.dropLast = [] := by simpa using hemp
      injection h with h
      cases h
      rw [← hsplit, hdrop, hlasteq]
      exact List.Perm.refl _
    · rename_i hemp
      have hdropne : heap.dropLast ≠ [] := by
        intro hd
        rw [hd] at hemp
        exact hemp rfl
      injection h with h
      cases h
      rcases hcons : heap.dropLast with _ | ⟨hd, tl⟩
      · exact absurd hcons hdropne
      · rw [← hsplit, hlasteq, hcons]
        show List.Perm (hd :: (tl ++ [lastelt])) (hd :: siftup lt (lastelt :: tl) 0)
        refine List.Perm.cons hd ?_
        refine (List.perm_append_singleton lastelt tl).trans ?_
        exact (siftup_perm lt (lastelt :: tl) 0 (by simp)).symm

end HeapPerm

/-! Supporting lemmas and claim theorems for the state machine and
priority scheduler. -/

/-- Reading back a just-written cooldown. -/
theorem lookupAllowed_assocSetStr (l : List (String × Nat)) (k : String) (v : Nat) :
    lookupAllowed (assocSetStr l k v) k = v := by
  unfold assocSetStr
  cases hany : l.any (fun p => p.1 == k) with
  | false =>
    simp only [Bool.false_eq_true, if_false]
    unfold lookupAllowed
    rw [List.find?_append]
    have hnone : l.find? (fun p => p.1 == k) = none := by
      rw [List.find?_eq_none]
      intro p hp hpk
      have hc : l.any (fun q => q.1 == k) = true := List.any_eq_true.mpr ⟨p, hp, hpk⟩
      rw [hany] at hc
      cases hc
    rw [hnone]
    simp
  | true =>
    simp only [if_true]
    have : ∀ m : List (String × Nat), m.any (fun p => p.1 == k) = true →
        lookupAllowed (m.map (fun p => if p.1 = k then (k, v) else p)) k = v := by
      intro m
      induction m with
      | nil => intro h; cases h
      | cons p rest ih =>
        intro h
        by_cases hpk : p.1 = k
        · unfold lookupAllowed
          rw [List.map_cons, List.find?_cons_of_pos _ (by simp [hpk])]
          simp [hpk]
        · rw [List.map_cons, if_neg hpk]
          unfold lookupAllowed
          rw [List.find?_cons_of_neg _ (by simp [hpk])]
          have hrest : rest.any (fun q => q.1 == k) = true := by
            rcases List.any_eq_true.mp h with ⟨q, hq, hqk⟩
            rcases List.mem_cons.mp hq with rfl | hq2
            · exact absurd (by simpa using hqk) hpk
            · exact List.any_eq_true.mpr ⟨q, hq2, hqk⟩
          exact ih hrest
    exact this l hany

/-- Neither the exit log nor an enter body touches the heap. -/
theorem stateEnterRun_state_heap (s : PState) (now : Nat) (m : NPCState) :
    (stateEnterRun s now m).state_heap = m.state_heap := by
  cases s <;> rfl

/-- Entering keeps the chosen current state field. -/
theorem stateEnterRun_state (s : PState) (now : Nat) (m : NPCState) :
    (stateEnterRun s now m).state = m.state := by
  cases s <;> rfl

/-- C4.  A state class placed on a `d`-second cooldown at time `T`
cannot become current before `T + d`: a direct `change_state` call at
any earlier time is rejected with a `None` result and no side effects
at all (no exit, no enter, object unchanged), and
`enqueue_prioritized_state` at any earlier time never takes its
immediate-switch bypass regardless of how urgent the priority is — the
current state and the lifecycle event log are unchanged. -/
theorem c4_cooldown_blocks_transition (npc : NPCState) (key : String) (d T now : Nat)
    (X : PState) (priority : Int) (hname : stateName X = key) (hnow : now < T + d) :
    change_state (set_state_cooldown npc key d T) X now =
      (none, set_state_cooldown npc key d T) ∧
    (enqueue_prioritized_state (set_state_cooldown npc key d T) now priority X).state =
      (set_state_cooldown npc key d T).state ∧
    (enqueue_prioritized_state (set_state_cooldown npc key d T) now priority X).events =
      (set_state_cooldown npc key d T).events := by
  have hlook : lookupAllowed (set_state_cooldown npc key d T).next_state_allowed
      (stateName X) = T + d := by
    rw [hname]
    show lookupAllowed (assocSetStr npc.next_state_allowed key (T + d)) key = T + d
    exact lookupAllowed_assocSetStr npc.next_state_allowed key (T + d)
  refine ⟨?_, ?_⟩
  · unfold change_state
    by_cases hsame : stateName X = stateName (set_state_cooldown npc key d T).state
    · rw [if_pos hsame]
    · rw [if_neg hsame, hlook, if_pos hnow]
  · unfold enqueue_prioritized_state
    by_cases hdup :
        (set_state_cooldown npc key d T).state_heap.any (isDuplicateOf X) = true
    · rw [if_pos hdup]
      exact ⟨rfl, rfl⟩
    · rw [if_neg hdup, hlook]
      split
      · exact ⟨rfl, rfl⟩
      · rw [if_neg (by intro hcond; omega)]
        exact ⟨rfl, rfl⟩

/-- Witness for C4: Sleep is cooled down for 300 seconds at time 1000;
at time 1100 neither path can make it current. -/
theorem c4_cooldown_blocks_transition_witness :
    (change_state
        (set_state_cooldown
          { state := PState.noState, state_heap := [⟨5, PState.combatNeutral⟩],
            next_state_allowed := [], events := [] } "SleepState" 300 1000)
        PState.sleep 1100 =
      (none, set_state_cooldown
        { state := PState.noState, state_heap := [⟨5, PState.combatNeutral⟩],
          next_state_allowed := [], events := [] } "SleepState" 300 1000)) ∧
    (enqueue_prioritized_state
        (set_state_cooldown
          { state := PState.noState, state_heap := [⟨5, PState.combatNeutral⟩],
            next_state_allowed := [], events := [] } "SleepState" 300 1000)
        1100 (-50) PState.sleep).state =
      (set_state_cooldown
        { state := PState.noState, state_heap := [⟨5, PState.combatNeutral⟩],
          next_state_allowed := [], events := [] } "SleepState" 300 1000).state ∧
    (enqueue_prioritized_state
        (set_state_cooldown
          { state := PState.noState, state_heap := [⟨5, PState.combatNeutral⟩],
            next_state_allowed := [], events := [] } "SleepState" 300 1000)
        1100 (-50) PState.sleep).events =
      (set_state_cooldown
        { state := PState.noState, state_heap := [⟨5, PState.combatNeutral⟩],
          next_state_allowed := [], events := [] } "SleepState" 300 1000).events :=
  c4_cooldown_blocks_transition
    { state := PState.noState, state_heap := [⟨5, PState.combatNeutral⟩],
      next_state_allowed := [], events := [] }
    "SleepState" 300 1000 1100 PState.sleep (-50) (by decide) (by decide)

/-- C10.  Enqueuing onto an empty heap never transitions immediately,
whatever the priority and whatever the cooldowns: the request is only
pushed (the bypass requires a nonempty heap). -/
theorem c10_empty_heap_only_pushes (npc : NPCState) (now : Nat) (priority : Int)
    (X : PState) (hempty : npc.state_heap = []) :
    enqueue_prioritized_state npc now priority X =
      { npc with state_heap := [⟨priority, X⟩] } := by
  unfold enqueue_prioritized_state
  rw [hempty]
  rfl

/-- Witness for C10: pushing CombatNeutral at urgent priority from an
empty heap. -/
theorem c10_empty_heap_only_pushes_witness :
    enqueue_prioritized_state
      { state := PState.noState, state_heap := [],
        next_state_allowed := [], events := [] } 7 (-100) PState.combatNeutral =
    { state := PState.noState,
      state_heap := [⟨-100, PState.combatNeutral⟩],
      next_state_allowed := [], events := [] } :=
  c10_empty_heap_only_pushes
    { state := PState.noState, state_heap := [],
      next_state_allowed := [], events := [] } 7 (-100) PState.combatNeutral rfl

/-- Two heap entries are compatible when equal classes can only be
gear-buying instances with distinct target shops. -/
def okEntry (e1 e2 : ScheduledState) : Prop :=
  sameClass e1.state_obj e2.state_obj = true →
    ∃ m1 m2, e1.state_obj = PState.gearBuying m1 ∧ e2.state_obj = PState.gearBuying m2 ∧
      m1 ≠ m2

/-- `okEntry` is symmetric, so it transports along permutations. -/
theorem okEntry_symm : Symmetric okEntry := by
  intro e1 e2 h hsame
  have hsame1 : sameClass e1.state_obj e2.state_obj = true := by
    unfold sameClass at hsame ⊢
    simp only [beq_iff_eq] at hsame ⊢
    exact hsame.symm
  obtain ⟨m1, m2, h1, h2, hne⟩ := h hsame1
  exact ⟨m2, m1, h2, h1, fun hc => hne hc.symm⟩

/-- Decomposing a failed gear-target comparison: it can only fail on
two gear-buying instances with distinct targets. -/
theorem dup_match_eq_false {X b : PState}
    (h : (match X, b with
      | PState.gearBuying m_new, PState.gearBuying m_old => m_old == m_new
      | _, _ => true) = false) :
    ∃ mN mO, X = PState.gearBuying mN ∧ b = PState.gearBuying mO ∧ mO ≠ mN := by
  cases X <;> cases b <;> simp_all

/-- C5.  (i) Enqueuing a state whose class already has a heap entry
(for gear-buying, with the same target shop) is silently rejected with
the whole object, in particular the heap, unchanged.  (ii) In every
scheduler state reachable by enqueue calls from an empty heap, no two
heap entries share a class unless both are gear-buying instances with
distinct targets — so a non-targeted class never has two entries.
(iii) Two gear-buying requests with different target shops yield two
distinct heap entries. -/
theorem c5_duplicate_suppression :
    (∀ (npc : NPCState) (now : Nat) (priority : Int) (X : PState),
      (∃ e ∈ npc.state_heap, isDuplicateOf X e = true) →
      enqueue_prioritized_state npc now priority X = npc) ∧
    (∀ npc : NPCState, ReachableNPC npc → npc.state_heap.Pairwise okEntry) ∧
    ((enqueue_prioritized_state
        (enqueue_prioritized_state
          { state := PState.noState, state_heap := [],
            next_state_allowed := [], events := [] } 0 5 (PState.gearBuying 1))
        0 7 (PState.gearBuying 2)).state_heap.length = 2 ∧
      (⟨5, PState.gearBuying 1⟩ : ScheduledState) ∈
        (enqueue_prioritized_state
          (enqueue_prioritized_state
            { state := PState.noState, state_heap := [],
              next_state_allowed := [], events := [] } 0 5 (PState.gearBuying 1))
          0 7 (PState.gearBuying 2)).state_heap ∧
      (⟨7, PState.gearBuying 2⟩ : ScheduledState) ∈
        (enqueue_prioritized_state
          (enqueue_prioritized_state
            { state := PState.noState, state_heap := [],
              next_state_allowed := [], events := [] } 0 5 (PState.gearBuying 1))
          0 7 (PState.gearBuying 2)).state_heap) := by
  refine ⟨?_, ?_, by decide, by decide, by decide⟩
  · intro npc now priority X ⟨e, he, hdup⟩
    unfold enqueue_prioritized_state
    rw [if_pos (List.any_eq_true.mpr ⟨e, he, hdup⟩)]
  · intro npc hreach
    induction hreach with
    | start s allowed ev => exact List.Pairwise.nil
    | step npc now priority X _ ih =>
      have hpush : (heappush schedLt npc.state_heap
          (⟨priority, X⟩ : ScheduledState)).Pairwise okEntry →
          ({ npc with state_heap := heappush schedLt npc.state_heap ⟨priority, X⟩ } :
            NPCState).state_heap.Pairwise okEntry := fun h => h
      unfold enqueue_prioritized_state
      by_cases hdup : npc.state_heap.any (isDuplicateOf X) = true
      · rw [if_pos hdup]
        exact ih
      · rw [if_neg hdup]
        have hnodup : ∀ e ∈ npc.state_heap, isDuplicateOf X e = false := by
          intro e he
          cases hde : isDuplicateOf X e with
          | false => rfl
          | true =>
            exact absurd (List.any_eq_true.mpr ⟨e, he, hde⟩) hdup
        have hok : (heappush schedLt npc.state_heap
            (⟨priority, X⟩ : ScheduledState)).Pairwise okEntry := by
          have hperm := heappush_perm schedLt npc.state_heap
            (⟨priority, X⟩ : ScheduledState)
          rw [hperm.pairwise_iff (fun {a b} h => okEntry_symm h)]
          refine List.Pairwise.cons ?_ ih
          intro e he hsame
          have hd := hnodup e he
          have hsame1 : sameClass e.state_obj X = true := by
            unfold sameClass at hsame ⊢
            simp only [beq_iff_eq] at hsame ⊢
            exact hsame.symm
          unfold isDuplicateOf at hd
          rw [hsame1, Bool.true_and] at hd
          obtain ⟨mN, mO, hXg, hOg, hne⟩ := dup_match_eq_false hd
          exact ⟨mN, mO, hXg, hOg, fun hc => hne hc.symm⟩
        split
        · exact hpush hok
        · split
          · show (stateEnterRun X now
              { (stateExitRun npc) with state := X }).state_heap.Pairwise okEntry
            rw [stateEnterRun_state_heap]
            exact ih
          · exact hpush hok

/-- Witness for C5: a duplicate CombatNeutral request is dropped, and a
one-step reachable heap satisfies the pairwise-class invariant. -/
theorem c5_duplicate_suppression_witness :
    (enqueue_prioritized_state
        { state := PState.noState, state_heap := [⟨5, PState.combatNeutral⟩],
          next_state_allowed := [], events := [] } 0 9 PState.combatNeutral =
      { state := PState.noState, state_heap := [⟨5, PState.combatNeutral⟩],
        next_state_allowed := [], events := [] }) ∧
    (enqueue_prioritized_state
        { state := PState.noState, state_heap := [],
          next_state_allowed := [], events := [] } 3 5 PState.sleep).state_heap.Pairwise
      okEntry :=
  ⟨c5_duplicate_suppression.1
      { state := PState.noState, state_heap := [⟨5, PState.combatNeutral⟩],
        next_state_allowed := [], events := [] } 0 9 PState.combatNeutral
      ⟨⟨5, PState.combatNeutral⟩, by decide, by decide⟩,
   c5_duplicate_suppression.2.1 _
      (ReachableNPC.step _ 3 5 PState.sleep (ReachableNPC.start PState.noState [] []))⟩

/-! The Dijkstra worklist invariants.  None of the arguments below use
the min-heap ordering: soundness and, at loop exit, completeness follow
from pure worklist reasoning, which is exactly why the source's final
distances are right however the heap serves its entries. -/

/-- A node already holding the popped distance value is never lowered
by the relaxation fold (a relaxation adds a nonnegative weight to that
same value). -/
theorem relaxAll_dist_frozen (cd cn : Nat) :
    ∀ (adj : List (Nat × Nat)) (st : DState) (u : Nat),
      st.dist u = (cd : WithTop Nat) →
      (relaxAll cd cn adj st).dist u = (cd : WithTop Nat) := by
  intro adj
  induction adj with
  | nil => intro st u h; exact h
  | cons nw rest ih =>
    intro st u h
    show (relaxAll cd cn rest (relaxStep cd cn st nw)).dist u = (cd : WithTop Nat)
    apply ih
    unfold relaxStep
    split
    · rename_i hlt
      show (if u = nw.1 then ((cd + nw.2 : Nat) : WithTop Nat) else st.dist u) =
        (cd : WithTop Nat)
      by_cases hu : u = nw.1
      · subst hu
        rw [h] at hlt
        have hc : cd + nw.2 < cd := by exact_mod_cast hlt
        exact absurd hc (by omega)
      · rw [if_neg hu]
        exact h
    · exact h

/-- Relaxation never drops queue entries. -/
theorem relaxAll_queue_mono (cd cn : Nat) :
    ∀ (adj : List (Nat × Nat)) (st : DState) (e : Nat × Nat),
      e ∈ st.queue → e ∈ (relaxAll cd cn adj st).queue := by
  intro adj
  induction adj with
  | nil => intro st e h; exact h
  | cons nw rest ih =>
    intro st e h
    show e ∈ (relaxAll cd cn rest (relaxStep cd cn st nw)).queue
    apply ih
    unfold relaxStep
    split
    · show e ∈ heappush tupLt st.queue (cd + nw.2, nw.1)
      have hperm := heappush_perm tupLt st.queue (cd + nw.2, nw.1)
      rw [hperm.mem_iff]
      exact List.mem_cons_of_mem _ h
    · exact h

/-- Relaxation never drops distance-dict keys. -/
theorem relaxAll_keys_mono (cd cn : Nat) :
    ∀ (adj : List (Nat × Nat)) (st : DState) (k : Nat),
      k ∈ st.distKeys → k ∈ (relaxAll cd cn adj st).distKeys := by
  intro adj
  induction adj with
  | nil => intro st k h; exact h
  | cons nw rest ih =>
    intro st k h
    show k ∈ (relaxAll cd cn rest (relaxStep cd cn st nw)).distKeys
    apply ih
    have hgoal : k ∈ (if nw.1 ∈ st.distKeys then st.distKeys else st.distKeys ++ [nw.1]) := by
      split
      · exact h
      · exact List.mem_append_left _ h
    unfold relaxStep
    split
    · exact hgoal
    · exact hgoal

/-- After the fold every listed neighbor is a distance-dict key (the
source's missing-key stopgap adds it before relaxing). -/
theorem relaxAll_adj_keys (cd cn : Nat) :
    ∀ (adj : List (Nat × Nat)) (st : DState) (p : Nat × Nat),
      p ∈ adj → p.1 ∈ (relaxAll cd cn adj st).distKeys := by
  intro adj
  induction adj with
  | nil => intro st p h; cases h
  | cons nw rest ih =>
    intro st p hp
    show p.1 ∈ (relaxAll cd cn rest (relaxStep cd cn st nw)).distKeys
    rcases List.mem_cons.mp hp with rfl | hrest
    · apply relaxAll_keys_mono
      have hgoal : p.1 ∈ (if p.1 ∈ st.distKeys then st.distKeys else st.distKeys ++ [p.1]) := by
        split
        · assumption
        · exact List.mem_append_right _ (List.mem_singleton.mpr rfl)
      unfold relaxStep
      split
      · exact hgoal
      · exact hgoal
    · exact ih (relaxStep cd cn st nw) p hrest

/-- Where a final distance value can come from: unchanged, or written
as `cd + w` for a listed edge `(v, w)`. -/
theorem relaxAll_dist_cases (cd cn : Nat) :
    ∀ (adj : List (Nat × Nat)) (st : DState) (v : Nat),
      (relaxAll cd cn adj st).dist v = st.dist v ∨
        ∃ w, (v, w) ∈ adj ∧ (relaxAll cd cn adj st).dist v = ((cd + w : Nat) : WithTop Nat) := by
  intro adj
  induction adj with
  | nil => intro st v; exact Or.inl rfl
  | cons nw rest ih =>
    intro st v
    have hfold : relaxAll cd cn (nw :: rest) st =
        relaxAll cd cn rest (relaxStep cd cn st nw) := rfl
    rcases ih (relaxStep cd cn st nw) v with hsame | ⟨w, hw, hval⟩
    · rw [hfold, hsame]
      by_cases hc : ((cd + nw.2 : Nat) : WithTop Nat) < st.dist nw.1
      · by_cases hv : v = nw.1
        · right
          refine ⟨nw.2, by rw [hv]; exact List.mem_cons_self _ _, ?_⟩
          show (relaxStep cd cn st nw).dist v = _
          unfold relaxStep
          rw [if_pos hc]
          show (if v = nw.1 then ((cd + nw.2 : Nat) : WithTop Nat) else st.dist v) = _
          rw [if_pos hv]
        · left
          show (relaxStep cd cn st nw).dist v = st.dist v
          unfold relaxStep
          rw [if_pos hc]
          show (if v = nw.1 then ((cd + nw.2 : Nat) : WithTop Nat) else st.dist v) = st.dist v
          rw [if_neg hv]
      · left
        show (relaxStep cd cn st nw).dist v = st.dist v
        unfold relaxStep
        rw [if_neg hc]
    · right
      refine ⟨w, List.mem_cons_of_mem _ hw, ?_⟩
      rw [hfold]
      exact hval

/-- Where a final queue entry can come from: an original entry, or a
pushed relaxation of a listed edge. -/
theorem relaxAll_queue_cases (cd cn : Nat) :
    ∀ (adj : List (Nat × Nat)) (st : DState) (dd v : Nat),
      (dd, v) ∈ (relaxAll cd cn adj st).queue →
      (dd, v) ∈ st.queue ∨ ∃ w, (v, w) ∈ adj ∧ dd = cd + w := by
  intro adj
  induction adj with
  | nil => intro st dd v h; exact Or.inl h
  | cons nw rest ih =>
    intro st dd v h
    have h2 : (dd, v) ∈ (relaxAll cd cn rest (relaxStep cd cn st nw)).queue := h
    rcases ih (relaxStep cd cn st nw) dd v h2 with hstep | ⟨w, hw, hval⟩
    · by_cases hc : ((cd + nw.2 : Nat) : WithTop Nat) < st.dist nw.1
      · have hstep2 : (dd, v) ∈ heappush tupLt st.queue (cd + nw.2, nw.1) := by
          have hq : (relaxStep cd cn st nw).queue =
              heappush tupLt st.queue (cd + nw.2, nw.1) := by
            unfold relaxStep
            rw [if_pos hc]
          rw [hq] at hstep
          exact hstep
        have hperm := heappush_perm tupLt st.queue (cd + nw.2, nw.1)
        rw [hperm.mem_iff] at hstep2
        rcases List.mem_cons.mp hstep2 with heq | hold
        · right
          refine ⟨nw.2, ?_, congrArg Prod.fst heq⟩
          have hv : v = nw.1 := congrArg Prod.snd heq
          rw [hv]
          exact List.mem_cons_self _ _
        · exact Or.inl hold
      · have hq : (relaxStep cd cn st nw).queue = st.queue := by
          unfold relaxStep
          rw [if_neg hc]
        rw [hq] at hstep
        exact Or.inl hstep
    · right
      exact ⟨w, List.mem_cons_of_mem _ hw, hval⟩


/-- `heappop` returns `none` only on the empty heap. -/
theorem heappop_none_eq_nil {α : Type} (lt : α → α → Bool) {heap : List α}
    (h : heappop lt heap = none) : heap = [] := by
  unfold heappop at h
  split at h
  · rename_i hlast
    exact List.getLast?_eq_none_iff.mp hlast
  · split at h <;> simp at h

/-- Each listed neighbor ends the fold relaxed: its distance is at most
the popped distance plus the edge weight. -/
theorem relaxAll_relaxed (cd cn : Nat) :
    ∀ (adj : List (Nat × Nat)) (st : DState) (p : Nat × Nat), p ∈ adj →
      (relaxAll cd cn adj st).dist p.1 ≤ ((cd + p.2 : Nat) : WithTop Nat) := by
  intro adj
  induction adj with
  | nil => intro st p h; cases h
  | cons nw rest ih =>
    intro st p hp
    rcases List.mem_cons.mp hp with heq | hrest
    · rw [heq]
      show (relaxAll cd cn rest (relaxStep cd cn st nw)).dist nw.1 ≤ _
      refine le_trans ((relaxAll_spec cd cn rest (relaxStep cd cn st nw)).1 nw.1) ?_
      unfold relaxStep
      by_cases hc : ((cd + nw.2 : Nat) : WithTop Nat) < st.dist nw.1
      · rw [if_pos hc]
        show (if nw.1 = nw.1 then ((cd + nw.2 : Nat) : WithTop Nat) else st.dist nw.1) ≤ _
        rw [if_pos rfl]
      · rw [if_neg hc]
        show st.dist nw.1 ≤ _
        exact le_of_not_lt hc
    · exact ih (relaxStep cd cn st nw) p hrest

/-- A distance changed by the fold has a matching entry pushed onto the
fold's final queue. -/
theorem relaxAll_pending (cd cn : Nat) :
    ∀ (adj : List (Nat × Nat)) (st : DState) (v : Nat),
      (relaxAll cd cn adj st).dist v = st.dist v ∨
      ∃ n, (relaxAll cd cn adj st).dist v = ((n : Nat) : WithTop Nat) ∧
        (n, v) ∈ (relaxAll cd cn adj st).queue := by
  intro adj
  induction adj with
  | nil => intro st v; exact Or.inl rfl
  | cons nw rest ih =>
    intro st v
    rcases ih (relaxStep cd cn st nw) v with hsame | ⟨n, hval, hq⟩
    · by_cases hc : ((cd + nw.2 : Nat) : WithTop Nat) < st.dist nw.1
      · by_cases hv : v = nw.1
        · right
          refine ⟨cd + nw.2, ?_, ?_⟩
          · show (relaxAll cd cn rest (relaxStep cd cn st nw)).dist v = _
            rw [hsame]
            unfold relaxStep
            rw [if_pos hc]
            show (if v = nw.1 then ((cd + nw.2 : Nat) : WithTop Nat) else st.dist v) = _
            rw [if_pos hv]
          · show (cd + nw.2, v) ∈ (relaxAll cd cn rest (relaxStep cd cn st nw)).queue
            apply relaxAll_queue_mono
            have hqclc : (relaxStep cd cn st nw).queue =
                heappush tupLt st.queue (cd + nw.2, nw.1) := by
              unfold relaxStep
              rw [if_pos hc]
            rw [hqclc]
            have hperm := heappush_perm tupLt st.queue (cd + nw.2, nw.1)
            rw [hperm.mem_iff, hv]
            exact List.mem_cons_self _ _
        · left
          show (relaxAll cd cn rest (relaxStep cd cn st nw)).dist v = st.dist v
          rw [hsame]
          unfold relaxStep
          rw [if_pos hc]
          show (if v = nw.1 then ((cd + nw.2 : Nat) : WithTop Nat) else st.dist v) = st.dist v
          rw [if_neg hv]
      · left
        show (relaxAll cd cn rest (relaxStep cd cn st nw)).dist v = st.dist v
        rw [hsame]
        unfold relaxStep
        rw [if_neg hc]
    · exact Or.inr ⟨n, hval, hq⟩

/-- The fold preserves "a recorded predecessor means a finite
distance": predecessors are only written together with a finite
distance, and distances never return to infinity. -/
theorem relaxAll_previnv (cd cn : Nat) :
    ∀ (adj : List (Nat × Nat)) (st : DState),
      (∀ v, st.prev v ≠ none → st.dist v ≠ ⊤) →
      ∀ v, (relaxAll cd cn adj st).prev v ≠ none →
        (relaxAll cd cn adj st).dist v ≠ ⊤ := by
  intro adj
  induction adj with
  | nil => intro st h v; exact h v
  | cons nw rest ih =>
    intro st h v
    refine ih (relaxStep cd cn st nw) ?_ v
    intro u hu
    by_cases hc : ((cd + nw.2 : Nat) : WithTop Nat) < st.dist nw.1
    · have hq : (relaxStep cd cn st nw).prev u =
          (if u = nw.1 then some cn else st.prev u) := by
        unfold relaxStep
        rw [if_pos hc]
      have hd : (relaxStep cd cn st nw).dist u =
          (if u = nw.1 then ((cd + nw.2 : Nat) : WithTop Nat) else st.dist u) := by
        unfold relaxStep
        rw [if_pos hc]
      rw [hq] at hu
      rw [hd]
      by_cases huw : u = nw.1
      · rw [if_pos huw]
        simp
      · rw [if_neg huw] at hu ⊢
        exact h u hu
    · have hq : (relaxStep cd cn st nw).prev u = st.prev u := by
        unfold relaxStep
        rw [if_neg hc]
      have hd : (relaxStep cd cn st nw).dist u = st.dist u := by
        unfold relaxStep
        rw [if_neg hc]
      rw [hq] at hu
      rw [hd]
      exact h u hu


/-- The worklist invariant of the Dijkstra loop: the start is at 0;
every finite recorded distance is witnessed by a walk; every queue
entry is witnessed by a walk and dominates the recorded distance of its
node; finite nodes are dict keys; every finite node either has an exact
pending queue entry or has all its outgoing edges relaxed; a recorded
predecessor implies a finite distance. -/
structure DInv (g : Graph) (s : Nat) (dist : Nat → WithTop Nat) (distKeys : List Nat)
    (prev : Nat → Option Nat) (queue : List (Nat × Nat)) : Prop where
  dist_s : dist s = ((0 : Nat) : WithTop Nat)
  sound : ∀ v n, dist v = ((n : Nat) : WithTop Nat) → PathTo g s v n
  qsound : ∀ dd v, (dd, v) ∈ queue →
    PathTo g s v dd ∧ dist v ≤ ((dd : Nat) : WithTop Nat)
  finkeys : ∀ v, dist v ≠ ⊤ → v ∈ distKeys
  pend : ∀ u, dist u ≠ ⊤ →
    (∃ dd, (dd, u) ∈ queue ∧ ((dd : Nat) : WithTop Nat) = dist u) ∨
    (∀ adj, lookupG g u = some adj → ∀ p ∈ adj,
      dist p.1 ≤ dist u + ((p.2 : Nat) : WithTop Nat))
  prevfin : ∀ v, prev v ≠ none → dist v ≠ ⊤

/-- What the loop's return value satisfies: the start is at 0, finite
distances are path lengths (soundness), no path is shorter than the
recorded distance (completeness), and a recorded predecessor implies a
finite distance. -/
structure DPost (g : Graph) (s : Nat)
    (r : (Nat → WithTop Nat) × List Nat × (Nat → Option Nat)) : Prop where
  dist_s : r.1 s = ((0 : Nat) : WithTop Nat)
  sound : ∀ v n, r.1 v = ((n : Nat) : WithTop Nat) → PathTo g s v n
  complete : ∀ v n, PathTo g s v n → r.1 v ≤ ((n : Nat) : WithTop Nat)
  prevfin : ∀ v, r.2.2 v ≠ none → r.1 v ≠ ⊤

/-- Completeness from relaxedness: if the start reads 0 and every
finite node has all outgoing edges relaxed, no walk beats the recorded
distances. -/
theorem complete_of_relaxed (g : Graph) (s : Nat) (dist : Nat → WithTop Nat)
    (h0 : dist s = ((0 : Nat) : WithTop Nat))
    (hrel : ∀ u, dist u ≠ ⊤ → ∀ adj, lookupG g u = some adj → ∀ p ∈ adj,
      dist p.1 ≤ dist u + ((p.2 : Nat) : WithTop Nat)) :
    ∀ v n, PathTo g s v n → dist v ≤ ((n : Nat) : WithTop Nat) := by
  intro v n hp
  induction hp with
  | refl =>
    rw [h0]
  | @step u v w n hp adj hu hv ih =>
    have hfin : dist u ≠ ⊤ := by
      intro ht
      rw [ht] at ih
      exact absurd (top_le_iff.mp ih) (by simp)
    have hedge := hrel u hfin adj hu (v, w) hv
    calc dist v ≤ dist u + ((w : Nat) : WithTop Nat) := hedge
      _ ≤ ((n : Nat) : WithTop Nat) + ((w : Nat) : WithTop Nat) := by
          exact add_le_add_right ih _
      _ = (((n + w : Nat)) : WithTop Nat) := by push_cast; rfl

/-- The worklist invariant carries through the loop and yields the
postcondition at exit. -/
theorem dijkstraLoop_post (g : Graph) (s : Nat) :
    ∀ (dist : Nat → WithTop Nat) (distKeys : List Nat) (prev : Nat → Option Nat)
      (queue : List (Nat × Nat)),
      DInv g s dist distKeys prev queue →
      DPost g s (dijkstraLoop g dist distKeys prev queue) := by
  intro d0 k0 p0 q0
  induction d0, k0, p0, q0 using dijkstraLoop.induct g with
  | case1 d k p q hpop =>
    intro hinv
    have hqnil : q = [] := heappop_none_eq_nil tupLt hpop
    have hret : dijkstraLoop g d k p q = (d, k, p) := by
      rw [dijkstraLoop.eq_def]
      split
      · rfl
      · rename_i cdcn1 queue1 heq
        rw [hpop] at heq
        exact Option.noConfusion heq
    rw [hret]
    refine ⟨hinv.dist_s, hinv.sound, ?_, hinv.prevfin⟩
    apply complete_of_relaxed g s d hinv.dist_s
    intro u hu
    rcases hinv.pend u hu with ⟨dd, hdd, _⟩ | hrel
    · rw [hqnil] at hdd
      cases hdd
    · exact hrel
  | case2 d k p q cdcn q1 hpop hkey hlt ih =>
    intro hinv
    have hstep : dijkstraLoop g d k p q = dijkstraLoop g d k p q1 := by
      rw [dijkstraLoop.eq_def]
      split
      · rename_i heq
        rw [hpop] at heq
        exact Option.noConfusion heq
      · rename_i cdcn1 queue1 heq
        rw [hpop] at heq
        injection heq with heq2
        have e1 : cdcn = cdcn1 := congrArg Prod.fst heq2
        have e2 : q1 = queue1 := congrArg Prod.snd heq2
        subst e1
        subst e2
        rw [if_pos hkey, if_pos hlt]
    rw [hstep]
    have hperm : List.Perm q (cdcn :: q1) := heappop_perm tupLt hpop
    apply ih
    refine ⟨hinv.dist_s, hinv.sound, ?_, hinv.finkeys, ?_, hinv.prevfin⟩
    · intro dd v hmem
      exact hinv.qsound dd v (hperm.mem_iff.mpr (List.mem_cons_of_mem _ hmem))
    · intro u hu
      rcases hinv.pend u hu with ⟨dd, hdd, hval⟩ | hrel
      · rcases List.mem_cons.mp (hperm.mem_iff.mp hdd) with heq | hq1
        · exfalso
          have hlt2 : d u < ((dd : Nat) : WithTop Nat) := by
            rw [← heq] at hlt
            exact hlt
          rw [← hval] at hlt2
          exact absurd hlt2 (lt_irrefl _)
        · exact Or.inl ⟨dd, hq1, hval⟩
      · exact Or.inr hrel
  | case3 d k p q cdcn q1 hpop hkey hnlt hnone ih =>
    intro hinv
    have hstep : dijkstraLoop g d k p q = dijkstraLoop g d k p q1 := by
      rw [dijkstraLoop.eq_def]
      split
      · rename_i heq
        rw [hpop] at heq
        exact Option.noConfusion heq
      · rename_i cdcn1 queue1 heq
        rw [hpop] at heq
        injection heq with heq2
        have e1 : cdcn = cdcn1 := congrArg Prod.fst heq2
        have e2 : q1 = queue1 := congrArg Prod.snd heq2
        subst e1
        subst e2
        rw [if_pos hkey, if_neg hnlt]
        split
        · rfl
        · rename_i adj1 heq3
          rw [hnone] at heq3
          exact Option.noConfusion heq3
    rw [hstep]
    have hperm : List.Perm q (cdcn :: q1) := heappop_perm tupLt hpop
    apply ih
    refine ⟨hinv.dist_s, hinv.sound, ?_, hinv.finkeys, ?_, hinv.prevfin⟩
    · intro dd v hmem
      exact hinv.qsound dd v (hperm.mem_iff.mpr (List.mem_cons_of_mem _ hmem))
    · intro u hu
      rcases hinv.pend u hu with ⟨dd, hdd, hval⟩ | hrel
      · rcases List.mem_cons.mp (hperm.mem_iff.mp hdd) with heq | hq1
        · right
          intro adj2 hadj2
          have hu2 : u = cdcn.2 := congrArg Prod.snd heq
          rw [hu2, hnone] at hadj2
          cases hadj2
        · exact Or.inl ⟨dd, hq1, hval⟩
      · exact Or.inr hrel
  | case4 d k p q cdcn q1 hpop hkey hnlt adj hadj st ih =>
    intro hinv
    have hperm : List.Perm q (cdcn :: q1) := heappop_perm tupLt hpop
    have hmemq : (cdcn.1, cdcn.2) ∈ q := by
      rw [hperm.mem_iff]
      exact List.mem_cons_self _ _
    have hq0 := hinv.qsound cdcn.1 cdcn.2 hmemq
    have hdcn : d cdcn.2 = ((cdcn.1 : Nat) : WithTop Nat) :=
      le_antisymm hq0.2 (le_of_not_lt hnlt)
    have hstep : dijkstraLoop g d k p q =
        dijkstraLoop g (relaxAll cdcn.1 cdcn.2 adj ⟨d, k, p, q1⟩).dist
          (relaxAll cdcn.1 cdcn.2 adj ⟨d, k, p, q1⟩).distKeys
          (relaxAll cdcn.1 cdcn.2 adj ⟨d, k, p, q1⟩).prev
          (relaxAll cdcn.1 cdcn.2 adj ⟨d, k, p, q1⟩).queue := by
      rw [dijkstraLoop.eq_def]
      split
      · rename_i heq
        rw [hpop] at heq
        exact Option.noConfusion heq
      · rename_i cdcn1 queue1 heq
        rw [hpop] at heq
        injection heq with heq2
        have e1 : cdcn = cdcn1 := congrArg Prod.fst heq2
        have e2 : q1 = queue1 := congrArg Prod.snd heq2
        subst e1
        subst e2
        rw [if_pos hkey, if_neg hnlt]
        split
        · rename_i heq3
          rw [hadj] at heq3
          exact Option.noConfusion heq3
        · rename_i adj1 heq3
          rw [hadj] at heq3
          injection heq3 with h3
          subst h3
          rfl
    rw [hstep]
    refine ih ?_
    show DInv g s (relaxAll cdcn.1 cdcn.2 adj ⟨d, k, p, q1⟩).dist
      (relaxAll cdcn.1 cdcn.2 adj ⟨d, k, p, q1⟩).distKeys
      (relaxAll cdcn.1 cdcn.2 adj ⟨d, k, p, q1⟩).prev
      (relaxAll cdcn.1 cdcn.2 adj ⟨d, k, p, q1⟩).queue
    constructor
    · -- dist_s
      refine le_antisymm ?_ ?_
      · calc (relaxAll cdcn.1 cdcn.2 adj ⟨d, k, p, q1⟩).dist s
            ≤ d s := (relaxAll_spec cdcn.1 cdcn.2 adj ⟨d, k, p, q1⟩).1 s
          _ = ((0 : Nat) : WithTop Nat) := hinv.dist_s
      · have hz : ((0 : Nat) : WithTop Nat) = 0 := by push_cast; rfl
        rw [hz]
        exact zero_le _
    · -- sound
      intro v n hval
      rcases relaxAll_dist_cases cdcn.1 cdcn.2 adj ⟨d, k, p, q1⟩ v with hsame | ⟨w, hw, hset⟩
      · rw [hsame] at hval
        exact hinv.sound v n hval
      · rw [hset] at hval
        have hn : cdcn.1 + w = n := by exact_mod_cast hval
        rw [← hn]
        exact PathTo.step hq0.1 hadj hw
    · -- qsound
      intro dd v hmem
      rcases relaxAll_queue_cases cdcn.1 cdcn.2 adj ⟨d, k, p, q1⟩ dd v hmem with hold | ⟨w, hw, hdd⟩
      · have hq1 := hinv.qsound dd v (hperm.mem_iff.mpr (List.mem_cons_of_mem _ hold))
        refine ⟨hq1.1, le_trans ((relaxAll_spec cdcn.1 cdcn.2 adj ⟨d, k, p, q1⟩).1 v) hq1.2⟩
      · constructor
        · rw [hdd]
          exact PathTo.step hq0.1 hadj hw
        · rw [hdd]
          exact relaxAll_relaxed cdcn.1 cdcn.2 adj ⟨d, k, p, q1⟩ (v, w) hw
    · -- finkeys
      intro v hv
      rcases relaxAll_dist_cases cdcn.1 cdcn.2 adj ⟨d, k, p, q1⟩ v with hsame | ⟨w, hw, _⟩
      · rw [hsame] at hv
        exact relaxAll_keys_mono cdcn.1 cdcn.2 adj ⟨d, k, p, q1⟩ v (hinv.finkeys v hv)
      · exact relaxAll_adj_keys cdcn.1 cdcn.2 adj ⟨d, k, p, q1⟩ (v, w) hw
    · -- pend
      intro u hu
      rcases relaxAll_pending cdcn.1 cdcn.2 adj ⟨d, k, p, q1⟩ u with hsame | ⟨n, hval, hqmem⟩
      · rw [hsame] at hu
        rcases hinv.pend u hu with ⟨dd, hdd, hval⟩ | hrel
        · rcases List.mem_cons.mp (hperm.mem_iff.mp hdd) with heq | hq1
          · right
            intro adj2 hadj2 pr hpr
            have hu2 : u = cdcn.2 := congrArg Prod.snd heq
            have hadjeq : adj2 = adj := by
              rw [hu2, hadj] at hadj2
              injection hadj2 with h2
              exact h2.symm
            subst hadjeq
            have hru : (relaxAll cdcn.1 cdcn.2 adj2 ⟨d, k, p, q1⟩).dist u =
                ((cdcn.1 : Nat) : WithTop Nat) := by
              rw [hsame]
              show d u = _
              rw [hu2, hdcn]
            rw [hru]
            calc (relaxAll cdcn.1 cdcn.2 adj2 ⟨d, k, p, q1⟩).dist pr.1
                ≤ ((cdcn.1 + pr.2 : Nat) : WithTop Nat) :=
                  relaxAll_relaxed cdcn.1 cdcn.2 adj2 ⟨d, k, p, q1⟩ pr hpr
              _ = ((cdcn.1 : Nat) : WithTop Nat) + ((pr.2 : Nat) : WithTop Nat) := by
                  push_cast; rfl
          · left
            refine ⟨dd, relaxAll_queue_mono cdcn.1 cdcn.2 adj ⟨d, k, p, q1⟩ (dd, u) hq1, ?_⟩
            rw [hsame]
            exact hval
        · right
          intro adj2 hadj2 pr hpr
          have h1 := hrel adj2 hadj2 pr hpr
          have h2 : (relaxAll cdcn.1 cdcn.2 adj ⟨d, k, p, q1⟩).dist pr.1 ≤ d pr.1 :=
            (relaxAll_spec cdcn.1 cdcn.2 adj ⟨d, k, p, q1⟩).1 pr.1
          rw [hsame]
          exact le_trans h2 h1
      · exact Or.inl ⟨n, hqmem, hval.symm⟩
    · -- prevfin
      exact relaxAll_previnv cdcn.1 cdcn.2 adj ⟨d, k, p, q1⟩ hinv.prevfin
  | case5 d k p q cdcn q1 hpop hnk ih =>
    intro hinv
    have hstep : dijkstraLoop g d k p q = dijkstraLoop g d k p q1 := by
      rw [dijkstraLoop.eq_def]
      split
      · rename_i heq
        rw [hpop] at heq
        exact Option.noConfusion heq
      · rename_i cdcn1 queue1 heq
        rw [hpop] at heq
        injection heq with heq2
        have e1 : cdcn = cdcn1 := congrArg Prod.fst heq2
        have e2 : q1 = queue1 := congrArg Prod.snd heq2
        subst e1
        subst e2
        rw [if_neg hnk]
    rw [hstep]
    have hperm : List.Perm q (cdcn :: q1) := heappop_perm tupLt hpop
    apply ih
    refine ⟨hinv.dist_s, hinv.sound, ?_, hinv.finkeys, ?_, hinv.prevfin⟩
    · intro dd v hmem
      exact hinv.qsound dd v (hperm.mem_iff.mpr (List.mem_cons_of_mem _ hmem))
    · intro u hu
      rcases hinv.pend u hu with ⟨dd, hdd, hval⟩ | hrel
      · rcases List.mem_cons.mp (hperm.mem_iff.mp hdd) with heq | hq1
        · exfalso
          have hu2 : u = cdcn.2 := congrArg Prod.snd heq
          rw [hu2] at hu
          exact hnk (hinv.finkeys cdcn.2 hu)
        · exact Or.inl ⟨dd, hq1, hval⟩
      · exact Or.inr hrel


/-- The initial state of `dijkstra` satisfies the worklist invariant,
so the returned triple satisfies the postcondition. -/
theorem dijkstra_post (g : Graph) (s : Nat) : DPost g s (dijkstra g s) := by
  show DPost g s (dijkstraLoop g
    (fun v => if v = s then ((0 : Nat) : WithTop Nat) else ⊤)
    (if s ∈ graphKeys g then graphKeys g else graphKeys g ++ [s])
    (fun _ => none) [(0, s)])
  apply dijkstraLoop_post
  constructor
  · rw [if_pos rfl]
  · intro v n hval
    by_cases hv : v = s
    · rw [if_pos hv] at hval
      have hn : (0 : Nat) = n := by exact_mod_cast hval
      rw [← hn, hv]
      exact PathTo.refl
    · rw [if_neg hv] at hval
      exact absurd hval.symm (by simp)
  · intro dd v hmem
    have heq : (dd, v) = (0, s) := List.mem_singleton.mp hmem
    have h1 : dd = 0 := congrArg Prod.fst heq
    have h2 : v = s := congrArg Prod.snd heq
    subst h1
    subst h2
    refine ⟨PathTo.refl, ?_⟩
    rw [if_pos rfl]
  · intro v hv
    by_cases hvs : v = s
    · subst hvs
      split
      · assumption
      · exact List.mem_append_right _ (List.mem_singleton.mpr rfl)
    · rw [if_neg hvs] at hv
      exact absurd rfl hv
  · intro u hu
    by_cases hus : u = s
    · subst hus
      left
      refine ⟨0, List.mem_singleton.mpr rfl, ?_⟩
      rw [if_pos rfl]
    · rw [if_neg hus] at hu
      exact absurd rfl hu
  · intro v hv
    exact absurd rfl hv

/-- Running the loop on the spec's three-room example, iteration by
iteration. -/
theorem dijkstra_exGraph_run :
    dijkstra exGraph 1 =
      (fun x => if x = 3 then ((2 : Nat) : WithTop Nat)
        else if x = 2 then ((1 : Nat) : WithTop Nat)
        else if x = 1 then ((0 : Nat) : WithTop Nat) else ⊤,
       [1, 2, 3],
       fun x => if x = 3 then some 2 else if x = 2 then some 1 else none) := by
  show dijkstraLoop exGraph (fun v => if v = 1 then ((0 : Nat) : WithTop Nat) else ⊤)
    [1, 2, 3] (fun _ => none) [(0, 1)] = _
  have s1 : dijkstraLoop exGraph
      (fun v => if v = 1 then ((0 : Nat) : WithTop Nat) else ⊤) [1, 2, 3]
      (fun _ => none) [(0, 1)] =
    dijkstraLoop exGraph
      (fun x => if x = 2 then ((1 : Nat) : WithTop Nat)
        else if x = 1 then ((0 : Nat) : WithTop Nat) else ⊤) [1, 2, 3]
      (fun x => if x = 2 then some 1 else none) [(1, 2)] := by
    rw [dijkstraLoop.eq_def]
    rfl
  have s2 : dijkstraLoop exGraph
      (fun x => if x = 2 then ((1 : Nat) : WithTop Nat)
        else if x = 1 then ((0 : Nat) : WithTop Nat) else ⊤) [1, 2, 3]
      (fun x => if x = 2 then some 1 else none) [(1, 2)] =
    dijkstraLoop exGraph
      (fun x => if x = 3 then ((2 : Nat) : WithTop Nat)
        else if x = 2 then ((1 : Nat) : WithTop Nat)
        else if x = 1 then ((0 : Nat) : WithTop Nat) else ⊤) [1, 2, 3]
      (fun x => if x = 3 then some 2 else if x = 2 then some 1 else none) [(2, 3)] := by
    rw [dijkstraLoop.eq_def]
    rfl
  have s3 : dijkstraLoop exGraph
      (fun x => if x = 3 then ((2 : Nat) : WithTop Nat)
        else if x = 2 then ((1 : Nat) : WithTop Nat)
        else if x = 1 then ((0 : Nat) : WithTop Nat) else ⊤) [1, 2, 3]
      (fun x => if x = 3 then some 2 else if x = 2 then some 1 else none) [(2, 3)] =
    dijkstraLoop exGraph
      (fun x => if x = 3 then ((2 : Nat) : WithTop Nat)
        else if x = 2 then ((1 : Nat) : WithTop Nat)
        else if x = 1 then ((0 : Nat) : WithTop Nat) else ⊤) [1, 2, 3]
      (fun x => if x = 3 then some 2 else if x = 2 then some 1 else none) [] := by
    rw [dijkstraLoop.eq_def]
    rfl
  have s4 : dijkstraLoop exGraph
      (fun x => if x = 3 then ((2 : Nat) : WithTop Nat)
        else if x = 2 then ((1 : Nat) : WithTop Nat)
        else if x = 1 then ((0 : Nat) : WithTop Nat) else ⊤) [1, 2, 3]
      (fun x => if x = 3 then some 2 else if x = 2 then some 1 else none) [] =
    (fun x => if x = 3 then ((2 : Nat) : WithTop Nat)
        else if x = 2 then ((1 : Nat) : WithTop Nat)
        else if x = 1 then ((0 : Nat) : WithTop Nat) else ⊤,
     [1, 2, 3],
     fun x => if x = 3 then some 2 else if x = 2 then some 1 else none) := by
    rw [dijkstraLoop.eq_def]
    rfl
  rw [s1, s2, s3, s4]

/-- The graph with node 2 referenced as a neighbor of 1 but absent from
the key set (the C7 scenario). -/
def ghostGraph : Graph := [(1, [(2, 1)])]

/-- Running the loop on `ghostGraph` from 1: the missing neighbor 2 is
added to the distance dict by the stopgap and relaxed to the finite
distance 1; popping it later hits the `not in graph` skip. -/
theorem dijkstra_ghostGraph_run :
    dijkstra ghostGraph 1 =
      (fun x => if x = 2 then ((1 : Nat) : WithTop Nat)
        else if x = 1 then ((0 : Nat) : WithTop Nat) else ⊤,
       [1, 2],
       fun x => if x = 2 then some 1 else none) := by
  show dijkstraLoop ghostGraph (fun v => if v = 1 then ((0 : Nat) : WithTop Nat) else ⊤)
    [1] (fun _ => none) [(0, 1)] = _
  have s1 : dijkstraLoop ghostGraph
      (fun v => if v = 1 then ((0 : Nat) : WithTop Nat) else ⊤) [1]
      (fun _ => none) [(0, 1)] =
    dijkstraLoop ghostGraph
      (fun x => if x = 2 then ((1 : Nat) : WithTop Nat)
        else if x = 1 then ((0 : Nat) : WithTop Nat) else ⊤) [1, 2]
      (fun x => if x = 2 then some 1 else none) [(1, 2)] := by
    rw [dijkstraLoop.eq_def]
    rfl
  have s2 : dijkstraLoop ghostGraph
      (fun x => if x = 2 then ((1 : Nat) : WithTop Nat)
        else if x = 1 then ((0 : Nat) : WithTop Nat) else ⊤) [1, 2]
      (fun x => if x = 2 then some 1 else none) [(1, 2)] =
    dijkstraLoop ghostGraph
      (fun x => if x = 2 then ((1 : Nat) : WithTop Nat)
        else if x = 1 then ((0 : Nat) : WithTop Nat) else ⊤) [1, 2]
      (fun x => if x = 2 then some 1 else none) [] := by
    rw [dijkstraLoop.eq_def]
    rfl
  have s3 : dijkstraLoop ghostGraph
      (fun x => if x = 2 then ((1 : Nat) : WithTop Nat)
        else if x = 1 then ((0 : Nat) : WithTop Nat) else ⊤) [1, 2]
      (fun x => if x = 2 then some 1 else none) [] =
    (fun x => if x = 2 then ((1 : Nat) : WithTop Nat)
        else if x = 1 then ((0 : Nat) : WithTop Nat) else ⊤,
     [1, 2],
     fun x => if x = 2 then some 1 else none) := by
    rw [dijkstraLoop.eq_def]
    rfl
  rw [s1, s2, s3]


/-- C6: for every graph and start node in its key set, `dijkstra`
returns true shortest-path distances: the start reads 0, every finite
reported distance is realized by a walk, no walk is shorter than the
reported distance, and an unreachable node reports distance infinity
with predecessor `None`; on the spec's example graph
`\x7b1: \x7b2:1\x7d, 2: \x7b1:1, 3:1\x7d, 3: \x7b\x7d\x7d` from 1 the
distances are 1 at 0, 2 at 1, 3 at 2 and the predecessor chain is
3 to 2 to 1. -/
theorem c6_dijkstra_shortest_paths (g : Graph) (s : Nat) (hs : s ∈ graphKeys g) :
    ((dijkstra g s).1 s = ((0 : Nat) : WithTop Nat)) ∧
    (∀ v n, (dijkstra g s).1 v = ((n : Nat) : WithTop Nat) → PathTo g s v n) ∧
    (∀ v n, PathTo g s v n → (dijkstra g s).1 v ≤ ((n : Nat) : WithTop Nat)) ∧
    (∀ v, (¬ ∃ n, PathTo g s v n) →
      (dijkstra g s).1 v = (⊤ : WithTop Nat) ∧ (dijkstra g s).2.2 v = none) ∧
    ((dijkstra exGraph 1).1 1 = ((0 : Nat) : WithTop Nat) ∧
     (dijkstra exGraph 1).1 2 = ((1 : Nat) : WithTop Nat) ∧
     (dijkstra exGraph 1).1 3 = ((2 : Nat) : WithTop Nat) ∧
     (dijkstra exGraph 1).2.2 3 = some 2 ∧
     (dijkstra exGraph 1).2.2 2 = some 1 ∧
     (dijkstra exGraph 1).2.2 1 = none) := by
  have hpost := dijkstra_post g s
  refine ⟨hpost.dist_s, hpost.sound, hpost.complete, ?_, ?_⟩
  · intro v hnr
    have hfin : (dijkstra g s).1 v = ⊤ := by
      by_contra hne
      rcases WithTop.ne_top_iff_exists.mp hne with ⟨n, hn⟩
      exact hnr ⟨n, hpost.sound v n hn.symm⟩
    refine ⟨hfin, ?_⟩
    by_contra hpne
    exact absurd hfin (hpost.prevfin v hpne)
  · rw [dijkstra_exGraph_run]
    exact ⟨rfl, rfl, rfl, rfl, rfl, rfl⟩

/-- Witness for C6 at the spec's example graph and start node 1. -/
theorem c6_dijkstra_shortest_paths_witness :
    1 ∈ graphKeys exGraph ∧ (dijkstra exGraph 1).1 1 = ((0 : Nat) : WithTop Nat) :=
  ⟨by decide, (c6_dijkstra_shortest_paths exGraph 1 (by decide)).1⟩

/-- C7 counterexample: in the graph with
the single key 1 and the edge 1 to 2, node 2 is referenced as a
neighbor but absent from the key set, yet `dijkstra` reports its
distance as the finite value 1, not infinity: the stopgap only adds the
missing key at infinity and the very next line relaxes it like any
reachable node. -/
theorem c7_counterexample_missing_neighbor_finite :
    2 ∉ graphKeys ghostGraph ∧
    (dijkstra ghostGraph 1).1 2 = ((1 : Nat) : WithTop Nat) ∧
    (dijkstra ghostGraph 1).1 2 ≠ (⊤ : WithTop Nat) := by
  refine ⟨by decide, ?_, ?_⟩
  · rw [dijkstra_ghostGraph_run]
    rfl
  · rw [dijkstra_ghostGraph_run]
    simp

/-- C7 amended: a node referenced as a neighbor but absent from the
graph's key set does not crash the algorithm (the source logs and skips
it when popped); its reported distance is the true shortest-path
distance from the start, which is infinity exactly when the node is
unreachable, and in general finite, not the unconditional infinity the
claim states. -/
theorem c7_missing_neighbor_no_crash (g : Graph) (s v : Nat)
    (hv : v ∉ graphKeys g) :
    (∀ n, (dijkstra g s).1 v = ((n : Nat) : WithTop Nat) → PathTo g s v n) ∧
    (∀ n, PathTo g s v n → (dijkstra g s).1 v ≤ ((n : Nat) : WithTop Nat)) ∧
    ((¬ ∃ n, PathTo g s v n) → (dijkstra g s).1 v = (⊤ : WithTop Nat)) := by
  have hpost := dijkstra_post g s
  refine ⟨fun n => hpost.sound v n, fun n => hpost.complete v n, ?_⟩
  intro hnr
  by_contra hne
  rcases WithTop.ne_top_iff_exists.mp hne with ⟨n, hn⟩
  exact hnr ⟨n, hpost.sound v n hn.symm⟩

/-- Witness for the amended C7 at the ghost-neighbor graph. -/
theorem c7_missing_neighbor_no_crash_witness :
    2 ∉ graphKeys ghostGraph ∧
    (∀ n, PathTo ghostGraph 1 2 n →
      (dijkstra ghostGraph 1).1 2 ≤ ((n : Nat) : WithTop Nat)) :=
  ⟨by decide, (c7_missing_neighbor_no_crash ghostGraph 1 2 (by decide)).2.1⟩

end McCay
